import Mathlib

set_option maxRecDepth 10000

/-!
# Verification of the kasumi kernel core

This file gives a shallow embedding, in Lean 4, of the core components of the
kasumi microkernel repository, and proves (or refutes) the specification claims
about them:

* `PageAlloc` — the lock-free bitmap-tree page allocator
  (`kernel_algo/src/mem/page_alloc.rs`, `TreeAlloc`).  The tree is modelled as a
  map from (layer, word index) to a 64-bit word value (a `Nat` below `2^64`);
  the source stores the same words as a flat slice, with `tree_layer` exposing
  exactly this (layer, index) view.  Atomic loads and RMW operations are
  modelled as plain reads and writes, which is faithful in the single-threaded
  setting the claims address: `fetch_or w` returns the current value and stores
  the or, `fetch_and` likewise.

* `Heap` — the chunk/slot allocator of `kernel/src/mem/heap.rs`
  (`ChunkHeader::alloc_slot`, `alloc_slot`, `update_slot_metadata`) and the
  object pool of `kernel/src/heap/pool.rs` together with the chunk allocator of
  `kernel/src/heap/chunk.rs` it is built on.  Panics (`assert!`, `expect`,
  out-of-bounds indexing, `todo!`) are modelled as explicit `panic` results.

* `OrderedMap` — the order-8 B-tree of `kernel/src/util/ordered_map/`
  (`mod.rs`, `insert.rs`, `remove.rs`).  Nodes are a mutual inductive
  (`Node`/`Forest`) so that every operation is structurally recursive and
  kernel-reducible.  `u64` keys are modelled as `Nat` (keys are only compared,
  never subject to overflow); values stay polymorphic.
-/

namespace PageAlloc

/-- `ATOMIC_WORD_MAX` (`u64::MAX`): the all-ones 64-bit word. -/
def allOnes : Nat := 2 ^ 64 - 1

/-- `u64::trailing_ones`, restricted to 64-bit values: the number of
consecutive set bits starting from bit 0, computed with explicit fuel 64.
For `w < 2^64` this agrees with the hardware semantics (result 64 exactly
when `w` is all-ones). -/
def trailingOnesAux : Nat → Nat → Nat
  | _, 0 => 0
  | w, fuel + 1 => if w % 2 = 1 then trailingOnesAux (w / 2) fuel + 1 else 0

/-- `u64::trailing_ones` for a 64-bit word. -/
def trailingOnes (w : Nat) : Nat := trailingOnesAux w 64

/-- The bitmap tree of `TreeAlloc`: `word l i` is the value of the `i`-th word
of layer `l` (layer 0 is the root, layer `height - 1` the leaf layer).  The
source keeps the same words in one flat slice; `TreeAlloc::tree_layer` is
exactly the function that turns the flat slice into this layered view. -/
structure Tree where
  height : Nat
  word : Nat → Nat → Nat

/-- Store value `v` into word `i` of layer `l` (a single word RMW in the
source). -/
def setWord (t : Tree) (l i v : Nat) : Tree :=
  ⟨t.height, fun a b => if a = l ∧ b = i then v else t.word a b⟩

/-- Result of the descent loop in `TreeAlloc::alloc`: the root word was full
(`alloc` returns `None`), a non-root word was full (the source restarts the
search: only reachable when another thread raced, or when the summary
invariant is broken), or a leaf word and free bit index were found. -/
inductive DescendResult where
  | full
  | retry
  | found (wordIdx bitIdx : Nat)
  deriving DecidableEq

/-- The descent loop of `TreeAlloc::alloc` (the inner `loop` walking from the
root towards the leaf layer).  `fuel` is the number of layers left to visit;
`descend` supplies `height`, which the loop never exceeds. -/
def descendAux (t : Tree) : Nat → Nat → Nat → DescendResult
  | 0, _, _ => .retry
  | fuel + 1, layer, wordIdx =>
      let w := t.word layer wordIdx
      let bit := trailingOnes w
      if bit = 64 then
        if layer = 0 then .full else .retry
      else if layer = t.height - 1 then .found wordIdx bit
      else descendAux t fuel (layer + 1) (wordIdx * 64 + bit)

/-- One descent from the root, as in `TreeAlloc::alloc`. -/
def descend (t : Tree) : DescendResult := descendAux t t.height 0 0

/-- The upward propagation loop of `TreeAlloc::alloc`
(`for layer in (0..height - 1).rev()`): while the child word just filled up,
set the corresponding bit in the parent; the source keeps iterating (updating
`word_idx`/`bit_idx`) even after `child_word_full` becomes false, which writes
nothing, exactly as the `else` branch below.  `n` is the number of layers
still to visit; the layer visited at fuel `n + 1` is layer `n`. -/
def propagate (t : Tree) : Nat → Nat → Nat → Bool → Tree
  | 0, _, _, _ => t
  | n + 1, wi, bi, cf =>
      if cf then
        let old := t.word n wi
        let t1 := setWord t n wi (old ||| 2 ^ bi)
        propagate t1 n (wi / 64) (wi % 64) (decide (old ||| 2 ^ bi = allOnes))
      else propagate t n (wi / 64) (wi % 64) false

/-- Result of one iteration of the outer `'search` loop of `TreeAlloc::alloc`:
region full (`None`), a retry (`continue 'search` — unreachable
single-threaded when the summary invariant holds, as proved below), or a page
index. -/
inductive AllocResult where
  | full
  | retry
  | page (idx : Nat)
  deriving DecidableEq

/-- One iteration of the `'search` loop of `TreeAlloc::alloc`, single
threaded: descend, claim the leaf bit with `fetch_or` (whose returned `old`
value is the current word), and propagate full words upward.  Since the
claims are about the single-threaded setting, and a single-threaded `alloc`
whose iteration does not ask for a retry simply returns that iteration's
result, this is `TreeAlloc::alloc` itself whenever the result is not
`.retry`. -/
def allocStep (t : Tree) : AllocResult × Tree :=
  match descend t with
  | .full => (.full, t)
  | .retry => (.retry, t)
  | .found wi bi =>
      let old := t.word (t.height - 1) wi
      if old.testBit bi then (.retry, t)
      else
        let nw := old ||| 2 ^ bi
        let t1 := setWord t (t.height - 1) wi nw
        let t2 := propagate t1 (t.height - 1) (wi / 64) (wi % 64) (decide (nw = allOnes))
        (.page (wi * 64 + bi), t2)

/-- `!(1 << bit)` masked to 64 bits is `ALL_ONES ^^^ (1 << bit)`;
`fetch_and` with it clears the bit. -/
def clearBit (w b : Nat) : Nat := w &&& (allOnes ^^^ 2 ^ b)

/-- The loop of `TreeAlloc::free` (`for layer in (0..height).rev()`): clear
the page's leaf bit, then unconditionally clear each ancestor bit up to the
root.  `n` is the number of layers still to visit; fuel `n + 1` visits
layer `n`. -/
def freeAux (t : Tree) : Nat → Nat → Nat → Tree
  | 0, _, _ => t
  | n + 1, wi, bi =>
      let t1 := setWord t n wi (clearBit (t.word n wi) bi)
      freeAux t1 n (wi / 64) (wi % 64)

/-- `TreeAlloc::free`. -/
def free (t : Tree) (pageIdx : Nat) : Tree :=
  freeAux t t.height (pageIdx / 64) (pageIdx % 64)

/-- Run `n` single-threaded allocations in sequence, collecting the results. -/
def allocN (t : Tree) : Nat → List AllocResult × Tree
  | 0 => ([], t)
  | n + 1 =>
      let r := allocStep t
      let rest := allocN r.2 n
      (r.1 :: rest.1, rest.2)

/-- Every word of the tree is a 64-bit value (the typing fact `tree: &[u64]`
of the source). -/
def Bounded (t : Tree) : Prop := ∀ l i, t.word l i < 2 ^ 64

/-- The summary invariant of the bitmap tree: every non-leaf bit is set iff
the child word it summarizes is all-ones.  (The leaf clause of the spec —
"leaf bit set iff the page is allocated" — is definitional in this model:
a page *is* allocated exactly when its leaf bit is set.) -/
def SummaryInv (t : Tree) : Prop :=
  ∀ l i b, l + 1 < t.height → i < 64 ^ l → b < 64 →
    ((t.word l i).testBit b = true ↔ t.word (l + 1) (i * 64 + b) = allOnes)

/-- The empty single-word tree: a height-1 region of 64 pages (the
`test_tree_height_1` scenario). -/
def tree1 : Tree := ⟨1, fun _ _ => 0⟩

/-! ### Basic facts about `trailingOnes`, `setWord` and `clearBit` -/

theorem trailingOnesAux_all_ones : ∀ f : Nat, trailingOnesAux (2 ^ f - 1) f = f := by
  intro f
  induction f with
  | zero => rfl
  | succ f ih =>
      have h2 : 2 ^ (f + 1) = 2 * 2 ^ f := by ring
      have hpos : 1 ≤ 2 ^ f := Nat.one_le_two_pow
      have hmod : (2 ^ (f + 1) - 1) % 2 = 1 := by omega
      have hdiv : (2 ^ (f + 1) - 1) / 2 = 2 ^ f - 1 := by omega
      simp [trailingOnesAux, hmod, hdiv, ih]

theorem trailingOnes_all_ones : trailingOnes allOnes = 64 :=
  trailingOnesAux_all_ones 64

theorem trailingOnesAux_spec :
    ∀ (f w : Nat), w < 2 ^ f → w ≠ 2 ^ f - 1 →
      trailingOnesAux w f < f ∧ w.testBit (trailingOnesAux w f) = false := by
  intro f
  induction f with
  | zero =>
      intro w hw hne
      exfalso
      apply hne
      have h1 : (2 : Nat) ^ 0 = 1 := rfl
      omega
  | succ f ih =>
      intro w hw hne
      have h2 : 2 ^ (f + 1) = 2 * 2 ^ f := by ring
      by_cases hm : w % 2 = 1
      · have hdivlt : w / 2 < 2 ^ f := by omega
        have hdivne : w / 2 ≠ 2 ^ f - 1 := by
          intro hEq
          have hw2 : w = 2 * (w / 2) + w % 2 := by omega
          have hpos : 1 ≤ 2 ^ f := Nat.one_le_two_pow
          omega
        obtain ⟨hlt, hbit⟩ := ih (w / 2) hdivlt hdivne
        have hunfold : trailingOnesAux w (f + 1) = trailingOnesAux (w / 2) f + 1 := by
          simp only [trailingOnesAux, hm, if_true]
        rw [hunfold]
        refine ⟨by omega, ?_⟩
        rw [Nat.testBit_add_one]
        exact hbit
      · have hunfold : trailingOnesAux w (f + 1) = 0 := by
          simp only [trailingOnesAux, hm, if_false]
        rw [hunfold]
        refine ⟨by omega, ?_⟩
        rw [Nat.testBit_zero]
        simp only [decide_eq_false_iff_not]
        omega

theorem trailingOnes_spec {w : Nat} (hw : w < 2 ^ 64) (hne : w ≠ allOnes) :
    trailingOnes w < 64 ∧ w.testBit (trailingOnes w) = false :=
  trailingOnesAux_spec 64 w hw hne

theorem setWord_height (t : Tree) (l i v : Nat) : (setWord t l i v).height = t.height := rfl

theorem setWord_self (t : Tree) (l i v : Nat) : (setWord t l i v).word l i = v := by
  simp [setWord]

theorem setWord_other (t : Tree) (l i v a b : Nat) (h : ¬(a = l ∧ b = i)) :
    (setWord t l i v).word a b = t.word a b := by
  simp only [setWord]
  rw [if_neg h]

theorem allOnes_testBit {b : Nat} (hb : b < 64) : allOnes.testBit b = true := by
  show ((2 : Nat) ^ 64 - 1).testBit b = true
  rw [Nat.testBit_two_pow_sub_one]
  simpa using hb

theorem ne_allOnes_of_testBit_false {w b : Nat} (hb : b < 64)
    (h : w.testBit b = false) : w ≠ allOnes := by
  intro hEq
  rw [hEq, allOnes_testBit hb] at h
  exact Bool.noConfusion h

theorem or_bit_testBit_self (w b : Nat) : (w ||| 2 ^ b).testBit b = true := by
  simp [Nat.testBit_or, Nat.testBit_two_pow_self]

theorem or_bit_testBit_other (w b b' : Nat) (h : b' ≠ b) :
    (w ||| 2 ^ b).testBit b' = w.testBit b' := by
  simp [Nat.testBit_or, Nat.testBit_two_pow_of_ne (Ne.symm h)]

theorem or_bit_lt {w : Nat} (hw : w < 2 ^ 64) {b : Nat} (hb : b < 64) :
    w ||| 2 ^ b < 2 ^ 64 :=
  Nat.or_lt_two_pow hw (Nat.pow_lt_pow_right (by omega) hb)

theorem clearBit_testBit_self {w b : Nat} (hb : b < 64) :
    (clearBit w b).testBit b = false := by
  simp [clearBit, Nat.testBit_and, Nat.testBit_xor, allOnes_testBit hb,
    Nat.testBit_two_pow_self]

theorem clearBit_testBit_other {w b b' : Nat} (hb' : b' < 64) (h : b' ≠ b) :
    (clearBit w b).testBit b' = w.testBit b' := by
  simp [clearBit, Nat.testBit_and, Nat.testBit_xor, allOnes_testBit hb',
    Nat.testBit_two_pow_of_ne (Ne.symm h)]

theorem clearBit_lt {w : Nat} (hw : w < 2 ^ 64) (b : Nat) : clearBit w b < 2 ^ 64 :=
  Nat.lt_of_le_of_lt Nat.and_le_left hw

theorem clearBit_ne_allOnes {w b : Nat} (hb : b < 64) : clearBit w b ≠ allOnes :=
  ne_allOnes_of_testBit_false hb (clearBit_testBit_self hb)

/-! ### The descent loop under the summary invariant -/

theorem descendAux_found (t : Tree) (hB : Bounded t) (hI : SummaryInv t) :
    ∀ fuel layer wordIdx, layer + fuel = t.height → layer < t.height →
      wordIdx < 64 ^ layer → t.word layer wordIdx ≠ allOnes →
      ∃ wi bi, descendAux t fuel layer wordIdx = .found wi bi ∧
        wi < 64 ^ (t.height - 1) ∧ bi < 64 ∧
        (t.word (t.height - 1) wi).testBit bi = false := by
  intro fuel
  induction fuel with
  | zero => intro layer wordIdx hlf hlh _ _; omega
  | succ fuel ih =>
      intro layer wordIdx hlf hlh hw hne
      obtain ⟨hbit_lt, hbit_free⟩ := trailingOnes_spec (hB layer wordIdx) hne
      simp only [descendAux]
      rw [if_neg (by omega)]
      by_cases hleaf : layer = t.height - 1
      · rw [if_pos hleaf]
        refine ⟨wordIdx, trailingOnes (t.word layer wordIdx), rfl, ?_, hbit_lt, ?_⟩
        · rw [← hleaf]; exact hw
        · rw [← hleaf]; exact hbit_free
      · rw [if_neg hleaf]
        have hrange : layer + 1 < t.height := by omega
        have hchild :
            t.word (layer + 1) (wordIdx * 64 + trailingOnes (t.word layer wordIdx)) ≠ allOnes := by
          intro hEq
          have hbit := (hI layer wordIdx (trailingOnes (t.word layer wordIdx)) hrange hw hbit_lt).mpr hEq
          rw [hbit] at hbit_free
          exact Bool.noConfusion hbit_free
        have hidx : wordIdx * 64 + trailingOnes (t.word layer wordIdx) < 64 ^ (layer + 1) := by
          have hmul : 64 ^ (layer + 1) = 64 ^ layer * 64 := by ring
          omega
        exact ih (layer + 1) (wordIdx * 64 + trailingOnes (t.word layer wordIdx))
          (by omega) hrange hidx hchild

theorem descend_full (t : Tree) (hh : 1 ≤ t.height) (hfull : t.word 0 0 = allOnes) :
    descend t = .full := by
  obtain ⟨f, hf⟩ : ∃ f, t.height = f + 1 := ⟨t.height - 1, by omega⟩
  simp only [descend, hf, descendAux]
  rw [hfull, trailingOnes_all_ones]
  simp

/-! ### Invariant preservation for the upward loops

`ExceptInv t n wi bi` says the summary relation holds at every in-range
non-leaf bit except possibly at bit `bi` of word `wi` of layer `n - 1` (the
parent bit whose child word was just modified); for `n = 0` this is the full
invariant. -/

def ExceptInv (t : Tree) (n wi bi : Nat) : Prop :=
  ∀ l i b, l + 1 < t.height → i < 64 ^ l → b < 64 →
    (1 ≤ n ∧ l = n - 1 ∧ i = wi ∧ b = bi) ∨
    ((t.word l i).testBit b = true ↔ t.word (l + 1) (i * 64 + b) = allOnes)

theorem summaryInv_of_exceptInv_zero {t : Tree} {wi bi : Nat}
    (h : ExceptInv t 0 wi bi) : SummaryInv t := by
  intro l i b hl hi hb
  rcases h l i b hl hi hb with h1 | h2
  · omega
  · exact h2

theorem exceptInv_of_summaryInv {t : Tree} (h : SummaryInv t) (n wi bi : Nat) :
    ExceptInv t n wi bi := fun l i b hl hi hb => Or.inr (h l i b hl hi hb)

theorem propagate_false_step (t : Tree) (n wi bi : Nat) :
    propagate t (n + 1) wi bi false = propagate t n (wi / 64) (wi % 64) false := rfl

theorem propagate_true_step (t : Tree) (n wi bi : Nat) :
    propagate t (n + 1) wi bi true =
      propagate (setWord t n wi (t.word n wi ||| 2 ^ bi)) n (wi / 64) (wi % 64)
        (decide (t.word n wi ||| 2 ^ bi = allOnes)) := rfl

theorem freeAux_step (t : Tree) (n wi bi : Nat) :
    freeAux t (n + 1) wi bi =
      freeAux (setWord t n wi (clearBit (t.word n wi) bi)) n (wi / 64) (wi % 64) := rfl

theorem pow64_div_le {wi n : Nat} (h : wi < 64 ^ n) (hn : 1 ≤ n) :
    wi / 64 < 64 ^ (n - 1) := by
  have hmul : 64 ^ n = 64 ^ (n - 1) * 64 := by
    rw [← pow_succ]
    congr 1
    omega
  omega

theorem propagate_inv :
    ∀ (n : Nat) (t : Tree) (wi bi : Nat) (cf : Bool),
      n < t.height →
      Bounded t →
      bi < 64 →
      (1 ≤ n → wi < 64 ^ (n - 1)) →
      ExceptInv t n wi bi →
      (1 ≤ n →
        if cf then
          t.word n (wi * 64 + bi) = allOnes ∧ (t.word (n - 1) wi).testBit bi = false
        else
          ((t.word (n - 1) wi).testBit bi = true ↔ t.word n (wi * 64 + bi) = allOnes)) →
      Bounded (propagate t n wi bi cf) ∧ SummaryInv (propagate t n wi bi cf) := by
  intro n
  induction n with
  | zero =>
      intro t wi bi cf _ hB _ _ hE _
      exact ⟨hB, summaryInv_of_exceptInv_zero hE⟩
  | succ n ih =>
      intro t wi bi cf hnh hB hbi hwi hE hside
      have hside' := hside (by omega)
      simp only [Nat.add_sub_cancel] at hside'
      have hwi' : wi < 64 ^ n := by
        have := hwi (by omega)
        simpa using this
      have hrecomp : wi / 64 * 64 + wi % 64 = wi := by omega
      cases cf with
      | false =>
          rw [propagate_false_step]
          apply ih t (wi / 64) (wi % 64) false (by omega) hB (by omega)
            (fun hn => pow64_div_le hwi' hn)
          · -- The pending relation at `(n, wi, bi)` in fact holds, so nothing
            -- is exceptional any more; shift the exception marker down a layer.
            intro l i b hl hi hb
            by_cases hExc : 1 ≤ n ∧ l = n - 1 ∧ i = wi / 64 ∧ b = wi % 64
            · exact Or.inl hExc
            · refine Or.inr ?_
              by_cases hOld : l = n ∧ i = wi ∧ b = bi
              · obtain ⟨h1, h2, h3⟩ := hOld
                subst h1; subst h2; subst h3
                exact hside'
              · rcases hE l i b hl hi hb with ⟨_, h1, h2, h3⟩ | h
                · exact (hOld ⟨by omega, h2, h3⟩).elim
                · exact h
          · intro hn
            have hrel := hE (n - 1) (wi / 64) (wi % 64) (by omega)
              (pow64_div_le hwi' hn) (by omega)
            rcases hrel with ⟨_, h1, _, _⟩ | h
            · omega
            · rw [show n - 1 + 1 = n by omega] at h
              simp only [Bool.false_eq_true, if_false]
              exact h
      | true =>
          rw [propagate_true_step]
          set w := t.word n wi with hw_def
          set t1 := setWord t n wi (w ||| 2 ^ bi) with ht1_def
          obtain ⟨hchild, hparbit⟩ := hside'
          have hBt1 : Bounded t1 := by
            intro a b
            by_cases hab : a = n ∧ b = wi
            · obtain ⟨ha, hb'⟩ := hab; subst ha; subst hb'
              rw [ht1_def, setWord_self]
              exact or_bit_lt (hB _ _) hbi
            · rw [ht1_def, setWord_other _ _ _ _ _ _ hab]
              exact hB a b
          have ht1_height : t1.height = t.height := rfl
          have hw_ne : w ≠ allOnes := ne_allOnes_of_testBit_false hbi hparbit
          apply ih t1 (wi / 64) (wi % 64) _ (by rw [ht1_height]; omega) hBt1 (by omega)
            (fun hn => pow64_div_le hwi' hn)
          · -- New exception marker at layer `n - 1`; every other in-range bit
            -- still satisfies the relation (or has just been repaired).
            intro l i b hl hi hb
            rw [ht1_height] at hl
            by_cases hExc : 1 ≤ n ∧ l = n - 1 ∧ i = wi / 64 ∧ b = wi % 64
            · exact Or.inl hExc
            · refine Or.inr ?_
              by_cases hl_n : l = n
              · subst hl_n
                by_cases hi_wi : i = wi
                · subst hi_wi
                  by_cases hb_bi : b = bi
                  · subst hb_bi
                    rw [ht1_def]
                    rw [setWord_self, or_bit_testBit_self,
                      setWord_other _ _ _ _ _ _ (by omega)]
                    simp [hchild]
                  · rw [ht1_def, setWord_self, or_bit_testBit_other _ _ _ hb_bi,
                      setWord_other _ _ _ _ _ _ (by omega)]
                    rcases hE l i b (by omega) hi hb with ⟨_, _, _, h3⟩ | h
                    · omega
                    · exact h
                · rw [ht1_def,
                    setWord_other _ _ _ _ _ _ (fun h => hi_wi h.2),
                    setWord_other _ _ _ _ _ _ (by omega)]
                  rcases hE l i b (by omega) hi hb with ⟨_, _, h2, _⟩ | h
                  · omega
                  · exact h
              · -- `l ≠ n`: the parent word is untouched; the child word is
                -- touched only when `l + 1 = n` and the child index is `wi`,
                -- which is exactly the (excluded) new exception.
                rw [ht1_def, setWord_other _ _ _ _ _ _ (fun h => hl_n h.1)]
                by_cases hchild_touch : l + 1 = n ∧ i * 64 + b = wi
                · obtain ⟨hln, hib⟩ := hchild_touch
                  exact (hExc ⟨by omega, by omega, by omega, by omega⟩).elim
                · rw [setWord_other _ _ _ _ _ _
                    (fun h => hchild_touch ⟨h.1, h.2⟩)]
                  rcases hE l i b hl hi hb with ⟨_, h1, _, _⟩ | h
                  · omega
                  · exact h
          · -- Side condition one layer up.
            intro hn
            have hparword : t1.word (n - 1) (wi / 64) = t.word (n - 1) (wi / 64) := by
              rw [ht1_def]
              exact setWord_other _ _ _ _ _ _ (by omega)
            have hchildword : t1.word n (wi / 64 * 64 + wi % 64) = w ||| 2 ^ bi := by
              rw [hrecomp, ht1_def, setWord_self]
            have hparfact : (t.word (n - 1) (wi / 64)).testBit (wi % 64) = false := by
              rcases hE (n - 1) (wi / 64) (wi % 64) (by omega)
                (pow64_div_le hwi' hn) (by omega) with ⟨_, h1, _, _⟩ | h
              · omega
              · rw [hrecomp, show n - 1 + 1 = n by omega] at h
                by_cases hbitval : (t.word (n - 1) (wi / 64)).testBit (wi % 64) = true
                · exact absurd (h.mp hbitval) hw_ne
                · simpa using hbitval
            by_cases hfull : w ||| 2 ^ bi = allOnes
            · rw [if_pos (by simpa using hfull)]
              rw [hparword, hchildword]
              exact ⟨hfull, hparfact⟩
            · rw [if_neg (by simpa using hfull)]
              rw [hparword, hchildword]
              constructor
              · intro hbitval
                rw [hparfact] at hbitval
                exact Bool.noConfusion hbitval
              · intro hEq
                exact absurd hEq hfull

theorem freeAux_inv :
    ∀ (n : Nat) (t : Tree) (wi bi : Nat),
      n ≤ t.height →
      Bounded t →
      bi < 64 →
      (1 ≤ n → wi < 64 ^ (n - 1)) →
      ExceptInv t n wi bi →
      (1 ≤ n → n < t.height → t.word n (wi * 64 + bi) ≠ allOnes) →
      Bounded (freeAux t n wi bi) ∧ SummaryInv (freeAux t n wi bi) := by
  intro n
  induction n with
  | zero =>
      intro t wi bi _ hB _ _ hE _
      exact ⟨hB, summaryInv_of_exceptInv_zero hE⟩
  | succ n ih =>
      intro t wi bi hnh hB hbi hwi hE hside
      have hwi' : wi < 64 ^ n := by
        have := hwi (by omega)
        simpa using this
      have hrecomp : wi / 64 * 64 + wi % 64 = wi := by omega
      rw [freeAux_step]
      set t1 := setWord t n wi (clearBit (t.word n wi) bi) with ht1_def
      have ht1_height : t1.height = t.height := rfl
      have hBt1 : Bounded t1 := by
        intro a b
        by_cases hab : a = n ∧ b = wi
        · obtain ⟨ha, hb'⟩ := hab; subst ha; subst hb'
          rw [ht1_def, setWord_self]
          exact clearBit_lt (hB _ _) bi
        · rw [ht1_def, setWord_other _ _ _ _ _ _ hab]
          exact hB a b
      apply ih t1 (wi / 64) (wi % 64) (by rw [ht1_height]; omega) hBt1 (by omega)
        (fun hn => pow64_div_le hwi' hn)
      · -- The cleared bit repairs the pending relation; the cleared word's own
        -- parent bit becomes the new (possible) exception.
        intro l i b hl hi hb
        rw [ht1_height] at hl
        by_cases hExc : 1 ≤ n ∧ l = n - 1 ∧ i = wi / 64 ∧ b = wi % 64
        · exact Or.inl hExc
        · refine Or.inr ?_
          by_cases hl_n : l = n
          · subst hl_n
            by_cases hi_wi : i = wi
            · subst hi_wi
              by_cases hb_bi : b = bi
              · subst hb_bi
                rw [ht1_def, setWord_self, clearBit_testBit_self hb,
                  setWord_other _ _ _ _ _ _ (by omega)]
                have hchild_ne := hside (by omega) (by omega)
                simp only [Nat.add_sub_cancel] at hchild_ne
                constructor
                · intro h; exact Bool.noConfusion h
                · intro h; exact absurd h hchild_ne
              · rw [ht1_def, setWord_self, clearBit_testBit_other hb hb_bi,
                  setWord_other _ _ _ _ _ _ (by omega)]
                rcases hE l i b (by omega) hi hb with ⟨_, _, _, h3⟩ | h
                · omega
                · exact h
            · rw [ht1_def,
                setWord_other _ _ _ _ _ _ (fun h => hi_wi h.2),
                setWord_other _ _ _ _ _ _ (by omega)]
              rcases hE l i b (by omega) hi hb with ⟨_, _, h2, _⟩ | h
              · omega
              · exact h
          · rw [ht1_def, setWord_other _ _ _ _ _ _ (fun h => hl_n h.1)]
            by_cases hchild_touch : l + 1 = n ∧ i * 64 + b = wi
            · obtain ⟨hln, hib⟩ := hchild_touch
              exact (hExc ⟨by omega, by omega, by omega, by omega⟩).elim
            · rw [setWord_other _ _ _ _ _ _ (fun h => hchild_touch ⟨h.1, h.2⟩)]
              rcases hE l i b hl hi hb with ⟨_, h1, _, _⟩ | h
              · omega
              · exact h
      · -- The freshly cleared word is certainly not all-ones.
        intro hn hnh'
        rw [hrecomp, ht1_def, setWord_self]
        exact clearBit_ne_allOnes hbi
/-! ### Claim C1: the summary invariant is preserved by `alloc` and `free` -/

/-- **C1.**  For every bitmap tree, in the single-threaded setting, the summary
invariant — every non-leaf bit is 1 iff the child word it summarizes equals
all-ones, with a leaf bit meaning "page allocated" — holds after every
`TreeAlloc::alloc` and `TreeAlloc::free`, given that it held before.
Additionally the single pass `allocStep` never asks for a retry, so it is
exactly what the single-threaded `TreeAlloc::alloc` loop executes. -/
theorem tree_summary_invariant_preserved (t : Tree) (hh : 1 ≤ t.height)
    (hB : Bounded t) (hI : SummaryInv t) :
    ((allocStep t).1 ≠ AllocResult.retry ∧
      Bounded (allocStep t).2 ∧ SummaryInv (allocStep t).2) ∧
    (∀ p, p < 64 ^ t.height → Bounded (free t p) ∧ SummaryInv (free t p)) := by
  constructor
  · by_cases hfull : t.word 0 0 = allOnes
    · have hd : descend t = .full := descend_full t hh hfull
      simp only [allocStep, hd]
      exact ⟨fun h => AllocResult.noConfusion h, hB, hI⟩
    · have hroot : (0 : Nat) < 64 ^ 0 := by norm_num
      obtain ⟨wi, bi, hfound, hwi, hbi, hfree⟩ :=
        descendAux_found t hB hI t.height 0 0 (by omega) (by omega) hroot hfull
      have hd : descend t = .found wi bi := hfound
      simp only [allocStep, hd, hfree]
      simp only [Bool.false_eq_true, if_false]
      refine ⟨fun h => AllocResult.noConfusion h, ?_⟩
      set nw := t.word (t.height - 1) wi ||| 2 ^ bi with hnw_def
      set t1 := setWord t (t.height - 1) wi nw with ht1_def
      have ht1_height : t1.height = t.height := rfl
      have hBt1 : Bounded t1 := by
        intro a b
        by_cases hab : a = t.height - 1 ∧ b = wi
        · obtain ⟨ha, hb'⟩ := hab; subst ha; subst hb'
          rw [ht1_def, setWord_self]
          exact or_bit_lt (hB _ _) hbi
        · rw [ht1_def, setWord_other _ _ _ _ _ _ hab]
          exact hB a b
      have hrecomp : wi / 64 * 64 + wi % 64 = wi := by omega
      apply propagate_inv (t.height - 1) t1 (wi / 64) (wi % 64) _
        (by omega) hBt1 (by omega)
        (fun hge => pow64_div_le hwi hge)
      · -- The only relation possibly broken in `t1` is the parent of the leaf
        -- word just claimed, which is exactly the exception marker.
        intro l i b hl hi hb
        rw [ht1_height] at hl
        by_cases hExc : 1 ≤ t.height - 1 ∧ l = t.height - 1 - 1 ∧
            i = wi / 64 ∧ b = wi % 64
        · exact Or.inl hExc
        · refine Or.inr ?_
          have hl_ne : l ≠ t.height - 1 := by omega
          rw [ht1_def, setWord_other _ _ _ _ _ _ (fun h => hl_ne h.1)]
          by_cases hchild_touch : l + 1 = t.height - 1 ∧ i * 64 + b = wi
          · obtain ⟨hln, hib⟩ := hchild_touch
            exact (hExc ⟨by omega, by omega, by omega, by omega⟩).elim
          · rw [setWord_other _ _ _ _ _ _ (fun h => hchild_touch ⟨h.1, h.2⟩)]
            exact hI l i b hl hi hb
      · -- The side condition: the claimed leaf word is the pending child.
        intro hge
        have hchildword : t1.word (t.height - 1) (wi / 64 * 64 + wi % 64) = nw := by
          rw [hrecomp, ht1_def, setWord_self]
        have hparword :
            t1.word (t.height - 1 - 1) (wi / 64) = t.word (t.height - 1 - 1) (wi / 64) := by
          rw [ht1_def]
          exact setWord_other _ _ _ _ _ _ (by omega)
        have hparfact : (t.word (t.height - 1 - 1) (wi / 64)).testBit (wi % 64) = false := by
          have hrel := hI (t.height - 1 - 1) (wi / 64) (wi % 64) (by omega)
            (pow64_div_le hwi hge) (by omega)
          rw [hrecomp, show t.height - 1 - 1 + 1 = t.height - 1 by omega] at hrel
          by_cases hbitval :
              (t.word (t.height - 1 - 1) (wi / 64)).testBit (wi % 64) = true
          · exact absurd (hrel.mp hbitval) (ne_allOnes_of_testBit_false hbi hfree)
          · simpa using hbitval
        by_cases hfullw : nw = allOnes
        · rw [if_pos (by simpa using hfullw)]
          rw [hparword, hchildword]
          exact ⟨hfullw, hparfact⟩
        · rw [if_neg (by simpa using hfullw)]
          rw [hparword, hchildword]
          constructor
          · intro hbitval
            rw [hparfact] at hbitval
            exact Bool.noConfusion hbitval
          · intro hEq
            exact absurd hEq hfullw
  · intro p hp
    apply freeAux_inv t.height t (p / 64) (p % 64) (by omega) hB (by omega)
      (fun hge => pow64_div_le hp hge)
      (exceptInv_of_summaryInv hI _ _ _)
      (by omega)

/-- Witness for C1: the theorem applied to the concrete empty height-1 tree. -/
theorem tree_summary_invariant_preserved_witness :
    ((allocStep tree1).1 ≠ AllocResult.retry ∧
      Bounded (allocStep tree1).2 ∧ SummaryInv (allocStep tree1).2) ∧
    (∀ p, p < 64 ^ tree1.height → Bounded (free tree1 p) ∧ SummaryInv (free tree1 p)) :=
  tree_summary_invariant_preserved tree1 (by decide)
    (fun l i => by show (0 : Nat) < 2 ^ 64; norm_num)
    (fun l i b hl hi hb => absurd (show l + 1 < 1 from hl) (by omega))

/-! ### Claim C2: the single-word (height-1, 64-page) scenario -/

/-- Tree state after the first four allocations. -/
def tree1a : Tree := (allocN tree1 4).2

/-- Tree state after additionally freeing page 2. -/
def tree1b : Tree := free tree1a 2

/-- Tree state after the re-allocation that returns page 2 again. -/
def tree1c : Tree := (allocStep tree1b).2

/-- Tree state after 60 further allocations (the word is then full). -/
def tree1full : Tree := (allocN tree1c 60).2

/-- **C2.**  On the single-word 64-page tree starting all-zero: the first four
allocs return pages 0, 1, 2, 3 in order and leave the leaf word `0b1111`;
freeing page 2 leaves `0b1011`; the next alloc returns 2, restoring `0b1111`;
60 more allocs (returning pages 4..63) leave the word all-ones; and every
subsequent alloc returns none (`full`), leaving the tree unchanged. -/
theorem single_word_tree_scenario :
    (allocN tree1 4).1 = [.page 0, .page 1, .page 2, .page 3] ∧
    tree1a.word 0 0 = 15 ∧
    tree1b.word 0 0 = 11 ∧
    (allocStep tree1b).1 = .page 2 ∧
    tree1c.word 0 0 = 15 ∧
    (allocN tree1c 60).1 = (List.range 60).map (fun i => .page (i + 4)) ∧
    tree1full.word 0 0 = allOnes ∧
    ∀ n, (allocN tree1full n).1 = List.replicate n .full ∧
      (allocN tree1full n).2 = tree1full := by
  refine ⟨by decide, by decide, by decide, by decide, by decide, by decide, by decide, ?_⟩
  have hstep : allocStep tree1full = (.full, tree1full) := rfl
  intro n
  induction n with
  | zero => exact ⟨rfl, rfl⟩
  | succ n ih =>
      obtain ⟨ih1, ih2⟩ := ih
      simp only [allocN, hstep]
      exact ⟨by rw [ih1]; rfl, ih2⟩

end PageAlloc

namespace Heap

open PageAlloc (allOnes trailingOnes trailingOnesAux trailingOnes_all_ones allOnes_testBit)

/-- `SMALL_PAGE_SIZE` / `SLOT_SIZE` / `SLOT_ALIGN`: 4 KiB (the repository's
`heap.rs` documents `SLOT_SIZE = SMALL_PAGE_SIZE = 0x1000`). -/
def SLOT_SIZE : Nat := 4096

/-- `LARGE_PAGE_SIZE` / `CHUNK_ALIGN` / `CHUNK_SIZE`: 2 MiB (`0x200_000`). -/
def CHUNK_ALIGN : Nat := 2097152

/-! ### `update_slot_metadata` of `kernel/src/mem/heap.rs` (claim C10) -/

/-- Observable outcome of `update_slot_metadata`: either a panic (failed
`assert!` or out-of-bounds `get_mut(..).expect(..)` on the 511-entry
`slot_metadata: [u32; 511]` array), or access to a given array entry. -/
inductive MetaAccess where
  | panic
  | entry (idx : Nat)
  deriving DecidableEq

/-- `update_slot_metadata(addr_in_slot, f)`: round the address down to the
2 MiB chunk boundary and the 4 KiB slot boundary, compute the slot index,
assert it is nonzero, and index `slot_metadata` (length 511) directly with
it.  We model which metadata entry the call hands to `f` (or a panic). -/
def updateSlotMetadata (addr : Nat) : MetaAccess :=
  let chunkAddr := addr / CHUNK_ALIGN * CHUNK_ALIGN
  let slotAddr := addr / SLOT_SIZE * SLOT_SIZE
  let slotIdx := (slotAddr - chunkAddr) / SLOT_SIZE
  if slotIdx = 0 then .panic
  else if slotIdx < 511 then .entry slotIdx
  else .panic

theorem slotIdx_eq (addr : Nat) :
    (addr / SLOT_SIZE * SLOT_SIZE - addr / CHUNK_ALIGN * CHUNK_ALIGN) / SLOT_SIZE =
      addr % CHUNK_ALIGN / SLOT_SIZE := by
  show (addr / 4096 * 4096 - addr / 2097152 * 2097152) / 4096 = addr % 2097152 / 4096
  omega

/-- **C10.**  For every address lying in the last slot (slot index 511) of a
2 MiB chunk, `update_slot_metadata` panics: the slot-metadata array has 511
entries and is indexed directly by the slot index, so index 511 is out of
bounds; and entry 0 of the array is never handed out for any slot (slot
index 0 is rejected by the assertion). -/
theorem update_slot_metadata_last_slot_panics :
    (∀ addr, addr % CHUNK_ALIGN / SLOT_SIZE = 511 → updateSlotMetadata addr = .panic) ∧
    (∀ addr, updateSlotMetadata addr ≠ .entry 0) := by
  constructor
  · intro addr h
    simp only [updateSlotMetadata]
    rw [slotIdx_eq, h]
    norm_num
  · intro addr
    simp only [updateSlotMetadata]
    rw [slotIdx_eq]
    by_cases h0 : addr % CHUNK_ALIGN / SLOT_SIZE = 0
    · rw [if_pos h0]
      exact fun h => MetaAccess.noConfusion h
    · rw [if_neg h0]
      by_cases h511 : addr % CHUNK_ALIGN / SLOT_SIZE < 511
      · rw [if_pos h511]
        intro h
        exact h0 (MetaAccess.entry.inj h)
      · rw [if_neg h511]
        exact fun h => MetaAccess.noConfusion h

/-- Witness for C10 at the concrete address `511 * 4096 + 7` (inside the last
slot of the chunk at address 0). -/
theorem update_slot_metadata_last_slot_panics_witness :
    (511 * 4096 + 7) % CHUNK_ALIGN / SLOT_SIZE = 511 ∧
    updateSlotMetadata (511 * 4096 + 7) = .panic ∧
    updateSlotMetadata (511 * 4096 + 7) ≠ .entry 0 :=
  ⟨by decide,
    update_slot_metadata_last_slot_panics.1 (511 * 4096 + 7) (by decide),
    update_slot_metadata_last_slot_panics.2 (511 * 4096 + 7)⟩

/-! ### `ChunkHeader::alloc_slot` and the global `alloc_slot`
(`kernel/src/mem/heap.rs`, claim C6)

Only the parts of `ChunkHeader` that `alloc_slot` reads or writes are
modelled: the 8×64-bit occupancy bitmap and the occupied-slot counter.  A
slot pointer `header + slot_idx * SLOT_SIZE` is represented by its
`slot_idx`. -/

structure ChunkHeader where
  slotBitmap : List Nat
  numOccupiedSlots : Nat
  deriving DecidableEq

/-- Bit `i` of a multi-word bitmap (word `i / 64`, bit `i % 64`). -/
def bitGetL (ws : List Nat) (i : Nat) : Bool := (ws.getD (i / 64) 0).testBit (i % 64)

/-- Bit `i` of a chunk's 512-bit slot occupancy bitmap. -/
def bitGet (c : ChunkHeader) (i : Nat) : Bool := bitGetL c.slotBitmap i

/-- The typing facts of `slot_bitmap: [u64; 8]`. -/
def WFChunk (c : ChunkHeader) : Prop :=
  c.slotBitmap.length = 8 ∧ ∀ w ∈ c.slotBitmap, w < 2 ^ 64

/-- The `find_map` scan inside `ChunkHeader::alloc_slot`: walk the bitmap
words in order; in the first word with a clear bit (`trailing_ones < 64`),
set that bit (the closure mutates the word *before* the 511 range check) and
report the raw index `word_idx * 64 + bit_idx`.  Returns the updated word
list together with the raw index. -/
def findMapBitmap : List Nat → Nat → Option (List Nat × Nat)
  | [], _ => none
  | w :: ws, wordIdx =>
      let bit := trailingOnes w
      if bit = 64 then
        match findMapBitmap ws (wordIdx + 1) with
        | some (ws2, idx) => some (w :: ws2, idx)
        | none => none
      else some ((w ||| 2 ^ bit) :: ws, wordIdx * 64 + bit)

/-- `ChunkHeader::alloc_slot`: scan the bitmap; reject raw index ≥ 511 (note
that the bitmap bit has already been set by the closure in that case, and the
occupied counter is *not* incremented); otherwise increment the counter and
return slot index `raw + 1` (slot 0 holds the header). -/
def chunkAllocSlot (c : ChunkHeader) : Option Nat × ChunkHeader :=
  match findMapBitmap c.slotBitmap 0 with
  | none => (none, c)
  | some (bm2, rawIdx) =>
      if 511 ≤ rawIdx then (none, { c with slotBitmap := bm2 })
      else (some (rawIdx + 1),
        { slotBitmap := bm2, numOccupiedSlots := c.numOccupiedSlots + 1 })

/-- Observable outcome of the global `alloc_slot`. -/
inductive SlotAllocResult where
  | panic
  | ok (slotIdx : Nat)
  deriving DecidableEq

/-- The global `alloc_slot()` of `kernel/src/mem/heap.rs`: under the heap
lock, take the *head* of the chunk list (`expect`-panic when the list is
empty), call `ChunkHeader::alloc_slot` on it, and `expect`-panic when that
returns `None`.  No other chunk is examined, no memory is zeroed, and
`PageAlloc` is never consulted. -/
def heapAllocSlot (chunkList : List ChunkHeader) : SlotAllocResult × List ChunkHeader :=
  match chunkList with
  | [] => (.panic, [])
  | c :: rest =>
      match chunkAllocSlot c with
      | (none, c2) => (.panic, c2 :: rest)
      | (some idx, c2) => (.ok idx, c2 :: rest)

/-- A chunk whose 512 slots are all occupied. -/
def fullChunk : ChunkHeader := ⟨List.replicate 8 allOnes, 511⟩

/-- A chunk with every slot free. -/
def freshChunk : ChunkHeader := ⟨List.replicate 8 0, 0⟩

/-! ### Characterizing the bitmap scan -/

theorem trailingOnesAux_eq_of :
    ∀ (f w r : Nat), r < f →
      (∀ j, j < r → w.testBit j = true) → w.testBit r = false →
      trailingOnesAux w f = r := by
  intro f
  induction f with
  | zero => intro w r hr _ _; omega
  | succ f ih =>
      intro w r hr hbelow hat
      cases r with
      | zero =>
          have h0 : w % 2 ≠ 1 := by
            intro h
            rw [Nat.testBit_zero] at hat
            simp [h] at hat
          simp only [trailingOnesAux, h0, if_false]
      | succ s =>
          have h0 : w % 2 = 1 := by
            have := hbelow 0 (by omega)
            rw [Nat.testBit_zero] at this
            simpa using this
          have hbelow2 : ∀ j, j < s → (w / 2).testBit j = true := by
            intro j hj
            rw [← Nat.testBit_add_one]
            exact hbelow (j + 1) (by omega)
          have hat2 : (w / 2).testBit s = false := by
            rw [← Nat.testBit_add_one]
            exact hat
          simp only [trailingOnesAux, h0, if_true]
          rw [ih (w / 2) s (by omega) hbelow2 hat2]

theorem eq_allOnes_of_bits {w : Nat} (hw : w < 2 ^ 64)
    (h : ∀ j, j < 64 → w.testBit j = true) : w = allOnes := by
  apply Nat.eq_of_testBit_eq
  intro i
  by_cases hi : i < 64
  · rw [h i hi, allOnes_testBit hi]
  · have hwi : w < 2 ^ i :=
      lt_of_lt_of_le hw (Nat.pow_le_pow_right (by omega) (by omega))
    have hai : allOnes < 2 ^ i := by
      have : allOnes < 2 ^ 64 := by
        show 2 ^ 64 - 1 < 2 ^ 64
        have : (1 : Nat) ≤ 2 ^ 64 := Nat.one_le_two_pow
        omega
      exact lt_of_lt_of_le this (Nat.pow_le_pow_right (by omega) (by omega))
    rw [Nat.testBit_lt_two_pow hwi, Nat.testBit_lt_two_pow hai]

theorem bitGetL_cons_ge (w : Nat) (ws : List Nat) {i : Nat} (hi : 64 ≤ i) :
    bitGetL (w :: ws) i = bitGetL ws (i - 64) := by
  unfold bitGetL
  have hdiv : i / 64 = (i - 64) / 64 + 1 := by omega
  have hmod : i % 64 = (i - 64) % 64 := by omega
  rw [hdiv, hmod, List.getD_cons_succ]

theorem bitGetL_cons_lt (w : Nat) (ws : List Nat) {i : Nat} (hi : i < 64) :
    bitGetL (w :: ws) i = w.testBit i := by
  unfold bitGetL
  have hdiv : i / 64 = 0 := by omega
  have hmod : i % 64 = i := by omega
  rw [hdiv, hmod, List.getD_cons_zero]

theorem findMapBitmap_none :
    ∀ (ws : List Nat) (k : Nat), (∀ w ∈ ws, w = allOnes) →
      findMapBitmap ws k = none := by
  intro ws
  induction ws with
  | nil => intro k _; rfl
  | cons w ws ih =>
      intro k hall
      have hw : w = allOnes := hall w (List.mem_cons_self w ws)
      have htail : ∀ x ∈ ws, x = allOnes := fun x hx => hall x (List.mem_cons_of_mem w hx)
      have htr : trailingOnes w = 64 := by rw [hw]; exact trailingOnes_all_ones
      simp [findMapBitmap, htr, ih (k + 1) htail]

theorem findMapBitmap_found :
    ∀ (ws : List Nat) (k raw : Nat),
      (∀ w ∈ ws, w < 2 ^ 64) →
      raw < 64 * ws.length →
      bitGetL ws raw = false →
      (∀ j, j < raw → bitGetL ws j = true) →
      findMapBitmap ws k = some
        (ws.set (raw / 64) (ws.getD (raw / 64) 0 ||| 2 ^ (raw % 64)),
          (k + raw / 64) * 64 + raw % 64) := by
  intro ws
  induction ws with
  | nil => intro k raw _ hraw _ _; simp at hraw
  | cons w ws ih =>
      intro k raw hbound hraw hbit hbelow
      by_cases hr64 : raw < 64
      · have hbit' : w.testBit raw = false := by
          rw [← bitGetL_cons_lt w ws hr64]
          exact hbit
        have hbelow' : ∀ j, j < raw → w.testBit j = true := by
          intro j hj
          rw [← bitGetL_cons_lt w ws (by omega)]
          exact hbelow j hj
        have htr : trailingOnes w = raw :=
          trailingOnesAux_eq_of 64 w raw hr64 hbelow' hbit'
        have hdiv : raw / 64 = 0 := by omega
        have hmod : raw % 64 = raw := by omega
        simp only [findMapBitmap, htr, if_neg (by omega : ¬ raw = 64), hdiv, hmod,
          List.set_cons_zero, List.getD_cons_zero, Nat.add_zero]
      · have hwfull : w = allOnes := by
          apply eq_allOnes_of_bits (hbound w (List.mem_cons_self w ws))
          intro j hj
          rw [← bitGetL_cons_lt w ws hj]
          exact hbelow j (by omega)
        have hlen : raw - 64 < 64 * ws.length := by
          rw [List.length_cons] at hraw
          omega
        have hbit' : bitGetL ws (raw - 64) = false := by
          rw [← bitGetL_cons_ge w ws (by omega)]
          exact hbit
        have hbelow' : ∀ j, j < raw - 64 → bitGetL ws j = true := by
          intro j hj
          have := hbelow (j + 64) (by omega)
          rw [bitGetL_cons_ge w ws (by omega)] at this
          simpa using this
        have hrec := ih (k + 1) (raw - 64) (fun x hx => hbound x (List.mem_cons_of_mem w hx))
          hlen hbit' hbelow'
        have htr : trailingOnes w = 64 := by rw [hwfull]; exact trailingOnes_all_ones
        simp only [findMapBitmap, htr, if_pos rfl, hrec]
        have hdiv : raw / 64 = (raw - 64) / 64 + 1 := by omega
        have hmod : raw % 64 = (raw - 64) % 64 := by omega
        rw [hdiv, hmod, List.set_cons_succ, List.getD_cons_succ]
        have hidx : (k + 1 + (raw - 64) / 64) * 64 + (raw - 64) % 64 =
            (k + ((raw - 64) / 64 + 1)) * 64 + (raw - 64) % 64 := by ring
        rw [← hidx]
        simp

/-! ### Claim C6 -/

/-- **C6, counterexample.**  The claim says every `alloc_slot` call scans the
chunk list in order for a chunk with a free slot, and falls back to
`PageAlloc` only when no chunk has one.  In the state whose chunk list is
`[fullChunk, freshChunk]`, the second chunk has every slot free, yet the code
panics: the global `alloc_slot` only ever examines the head of the list. -/
theorem alloc_slot_claim_counterexample :
    (heapAllocSlot [fullChunk, freshChunk]).1 = .panic ∧
    bitGet freshChunk 1 = false ∧ bitGet freshChunk 2 = false := by
  refine ⟨?_, by decide, by decide⟩
  have hfull : ∀ w ∈ fullChunk.slotBitmap, w = allOnes := by
    intro w hw
    simpa using List.eq_of_mem_replicate hw
  have hnone := findMapBitmap_none fullChunk.slotBitmap 0 hfull
  simp only [heapAllocSlot, chunkAllocSlot, hnone]

/-- **C6, amended.**  What `alloc_slot` actually does: it examines only the
head chunk of the list (panicking when the list is empty); within that chunk
it finds the lowest clear bit `raw` of the 8×64-bit occupancy bitmap via the
trailing-ones scan and sets it; when `raw < 511`, it increments the chunk's
occupied-slot counter and returns slot index `raw + 1` (the slot's memory is
not zeroed); when the bitmap is entirely full it panics with the state
unchanged; when `raw = 511` (the out-of-range last bitmap bit) it panics with
the bit set but the counter untouched.  It never examines the rest of the
list and never calls `PageAlloc`. -/
theorem alloc_slot_head_chunk_only :
    (heapAllocSlot [] = (.panic, [])) ∧
    (∀ c rest, WFChunk c →
      ((∀ i, i < 512 → bitGet c i = true) →
          heapAllocSlot (c :: rest) = (.panic, c :: rest)) ∧
      (∀ raw, raw < 511 → bitGet c raw = false → (∀ j, j < raw → bitGet c j = true) →
          heapAllocSlot (c :: rest) =
            (.ok (raw + 1),
              { slotBitmap := c.slotBitmap.set (raw / 64)
                  (c.slotBitmap.getD (raw / 64) 0 ||| 2 ^ (raw % 64)),
                numOccupiedSlots := c.numOccupiedSlots + 1 } :: rest)) ∧
      (bitGet c 511 = false → (∀ j, j < 511 → bitGet c j = true) →
          heapAllocSlot (c :: rest) =
            (.panic,
              { slotBitmap := c.slotBitmap.set 7 (c.slotBitmap.getD 7 0 ||| 2 ^ 63),
                numOccupiedSlots := c.numOccupiedSlots } :: rest))) := by
  refine ⟨rfl, ?_⟩
  intro c rest hwf
  obtain ⟨hlen, hbound⟩ := hwf
  refine ⟨?_, ?_, ?_⟩
  · -- Entirely full bitmap: the scan finds nothing and the code panics.
    intro hall
    have hfull : ∀ w ∈ c.slotBitmap, w = allOnes := by
      intro w hw
      obtain ⟨m, hm, hget⟩ := List.mem_iff_getElem.mp hw
      apply eq_allOnes_of_bits (hbound w hw)
      intro j hj
      have := hall (m * 64 + j) (by omega)
      unfold bitGet bitGetL at this
      have hdiv : (m * 64 + j) / 64 = m := by omega
      have hmod : (m * 64 + j) % 64 = j := by omega
      rw [hdiv, hmod, List.getD_eq_getElem _ _ hm, hget] at this
      exact this
    have hnone := findMapBitmap_none c.slotBitmap 0 hfull
    simp only [heapAllocSlot, chunkAllocSlot, hnone]
  · -- A free slot below index 511: first-fit within the head chunk.
    intro raw hraw hbit hbelow
    have hfound := findMapBitmap_found c.slotBitmap 0 raw hbound (by omega) hbit hbelow
    have hidx : (0 + raw / 64) * 64 + raw % 64 = raw := by omega
    rw [hidx] at hfound
    simp only [heapAllocSlot, chunkAllocSlot, hfound]
    rw [if_neg (by omega)]
  · -- Only bit 511 free: the scan sets it, but the 511 range check rejects it.
    intro hbit hbelow
    have hfound := findMapBitmap_found c.slotBitmap 0 511 hbound (by omega) hbit hbelow
    have hidx : (0 + 511 / 64) * 64 + 511 % 64 = 511 := by omega
    rw [hidx] at hfound
    have hdiv : (511 : Nat) / 64 = 7 := by omega
    have hmod : (511 : Nat) % 64 = 63 := by omega
    rw [hdiv, hmod] at hfound
    simp only [heapAllocSlot, chunkAllocSlot, hfound]
    rw [if_pos (by omega)]

/-- Witness for the amended C6: allocating from a list whose head is the
all-free chunk returns slot 1 and sets bit 0 of the first bitmap word. -/
theorem alloc_slot_head_chunk_only_witness :
    heapAllocSlot [freshChunk] =
      (.ok 1,
        [{ slotBitmap := freshChunk.slotBitmap.set 0 (freshChunk.slotBitmap.getD 0 0 ||| 2 ^ 0),
           numOccupiedSlots := freshChunk.numOccupiedSlots + 1 }]) := by
  have h := (alloc_slot_head_chunk_only.2 freshChunk [] (by constructor <;> decide)).2.1
    0 (by omega) (by decide) (fun j hj => absurd hj (by omega))
  simpa using h

/-! ### The object pool of `kernel/src/heap/pool.rs` (claim C7)

`ObjectPool<256>` together with the chunk allocator of
`kernel/src/heap/chunk.rs` it calls into.  The model carries:

* `freeChunks` — the chunk allocator's free-chunk list, abstracted to the
  list of chunk base addresses reachable from `CHUNK_ALLOC.free_chunk_list`
  through the in-chunk `FreeChunkHeader::next_free` pointers;
* `meta` — the per-chunk `u64` metadata word of `HeapPageHeader`, keyed by
  the chunk's base address (the source stores it at
  `heap_page + offset_of(chunk_metadatas) + chunk_idx * 8`, which is in
  bijection with the chunk address `update_metadata` derives it from);
* `mem` — the first word of every 256-byte object slot, i.e. the
  `Object::next_free` union field (`0` encodes `None`, matching the niche
  layout of `Option<NonNull>`), keyed by object address;
* `head` — the pool's `free_obj_list` pointer (`0` = `None`).
-/

structure PoolSys where
  freeChunks : List Nat
  meta : Nat → Nat
  mem : Nat → Nat
  head : Nat

/-- A single word store to object memory. -/
def writeMem (m : Nat → Nat) (a v : Nat) : Nat → Nat := fun x => if x = a then v else m x

/-- `chunk::alloc` of `kernel/src/heap/chunk.rs`: pop the head of the free
chunk list (`todo!` panic — modelled as `none` — when empty), zero the
chunk's 4 KiB of memory (`write_bytes(.., 0, SMALL_PAGE_SIZE)`), and zero
its metadata via `update_metadata(chunk, |meta| *meta = 0)`. -/
def chunkAlloc (s : PoolSys) : Option (Nat × PoolSys) :=
  match s.freeChunks with
  | [] => none
  | c :: rest =>
      some (c,
        { freeChunks := rest,
          meta := fun a => if a = c then 0 else s.meta a,
          mem := fun a => if c ≤ a ∧ a < c + SLOT_SIZE then 0 else s.mem a,
          head := s.head })

/-- `size_of::<Object<256>>()`. -/
def objSize : Nat := 256

/-- `objs_per_chunk = SMALL_PAGE_SIZE / size_of::<Object<S>>()` = 16. -/
def objsPerChunk : Nat := SLOT_SIZE / objSize

/-- The threading loop of `ObjectPool::new_chunk`
(`for i in 0..objs_per_chunk - 2`): after `threadObjs c m k`, objects
`0 .. k-1` of the chunk at `c` each point at the next object. -/
def threadObjs (c : Nat) (m : Nat → Nat) : Nat → (Nat → Nat)
  | 0 => m
  | i + 1 => writeMem (threadObjs c m i) (c + i * objSize) (c + (i + 1) * objSize)

/-- `ObjectPool::new_chunk`: allocate a chunk, thread objects `0..=13` onto a
list, point object 14 at the current pool head, make object 0 the new head,
and hand object 15 to the caller for the pending allocation. -/
def newChunk (s : PoolSys) : Option (Nat × PoolSys) :=
  match chunkAlloc s with
  | none => none
  | some (c, s1) =>
      let m1 := threadObjs c s1.mem (objsPerChunk - 2)
      let m2 := writeMem m1 (c + (objsPerChunk - 2) * objSize) s1.head
      some (c + (objsPerChunk - 1) * objSize,
        { s1 with mem := m2, head := c })

/-- `ObjectPool::alloc`: `let obj = free_obj_list.unwrap_or_else(new_chunk);
free_obj_list = obj.next_free; obj`.  Note that after the `new_chunk` path
the code loads `next_free` from the object it was handed (object 15, whose
word was zeroed with the rest of the chunk), not from the threaded list
head. -/
def poolAlloc (s : PoolSys) : Option (Nat × PoolSys) :=
  if s.head ≠ 0 then
    some (s.head, { s with head := s.mem s.head })
  else
    match newChunk s with
    | none => none
    | some (obj, s1) => some (obj, { s1 with head := s1.mem obj })

/-- `ObjectPool::free`: assert the pointer is aligned for `Object<256>`
(alignment 8), store the current head into the object's `next_free` word,
and make the object the new head. -/
def poolFree (s : PoolSys) (obj : Nat) : Option PoolSys :=
  if obj % 8 = 0 then
    some { s with mem := writeMem s.mem obj s.head, head := obj }
  else none

/-- The bootstrap heap page chunk used for the concrete run (any 2 MiB
aligned nonzero address; the value only needs to be concrete). -/
def bootChunkAddr : Nat := 2097152

/-- A pool right after `chunk::init()` and `ObjectPool::new()`: one free
chunk, an empty freelist, and (per `init`) all chunk metadata words zero. -/
def poolInit : PoolSys :=
  { freeChunks := [bootChunkAddr], meta := fun _ => 0, mem := fun _ => 0, head := 0 }

/-- **C7** (evaluating the code at the failing input).  The claim says
`ObjectPool::alloc` increments the live-object count in the metadata of the
slot containing the returned object and `ObjectPool::free` decrements it, so
that the summed live count equals allocs minus frees.  In fact neither
function touches the metadata at all: after one successful `alloc` from the
freshly initialized pool (allocs − frees = 1), the metadata of the chunk
containing the returned object is still 0; and `free` leaves every metadata
word of every state unchanged, while `alloc` only ever zeroes the metadata
of a freshly obtained chunk (it never increments anything). -/
theorem pool_alloc_free_ignore_live_count :
    ((poolAlloc poolInit).map Prod.fst = some (bootChunkAddr + 15 * objSize)) ∧
    ((poolAlloc poolInit).map (fun r => r.2.meta bootChunkAddr) = some 0) ∧
    (∀ s obj s2, poolFree s obj = some s2 → ∀ a, s2.meta a = s.meta a) ∧
    (∀ s r, poolAlloc s = some r →
      ∀ a, r.2.meta a = s.meta a ∨ r.2.meta a = 0) := by
  refine ⟨by decide, by decide, ?_, ?_⟩
  · intro s obj s2 h a
    unfold poolFree at h
    by_cases halign : obj % 8 = 0
    · rw [if_pos halign] at h
      cases h
      rfl
    · rw [if_neg halign] at h
      exact Option.noConfusion h
  · intro s r h a
    unfold poolAlloc at h
    by_cases hhead : s.head ≠ 0
    · rw [if_pos hhead] at h
      cases h
      exact Or.inl rfl
    · rw [if_neg hhead] at h
      unfold newChunk chunkAlloc at h
      cases hfc : s.freeChunks with
      | nil => rw [hfc] at h; exact Option.noConfusion h
      | cons c rest =>
          rw [hfc] at h
          simp only [Option.some.injEq] at h
          cases h
          by_cases hac : a = c
          · subst hac
            exact Or.inr (by simp)
          · exact Or.inl (by simp [hac])

/-- Witness for C7: the frame facts applied at a concrete state (freeing
object address 8 into the fresh pool changes no metadata word). -/
theorem pool_alloc_free_ignore_live_count_witness :
    ((poolAlloc poolInit).map Prod.fst = some (bootChunkAddr + 15 * objSize)) ∧
    ({ poolInit with mem := writeMem poolInit.mem 8 poolInit.head, head := 8 }.meta bootChunkAddr
        = poolInit.meta bootChunkAddr) :=
  ⟨pool_alloc_free_ignore_live_count.1,
    pool_alloc_free_ignore_live_count.2.2.1 poolInit 8
      { poolInit with mem := writeMem poolInit.mem 8 poolInit.head, head := 8 }
      rfl bootChunkAddr⟩

end Heap

namespace OMap

/-- `ORDER = 8`, the maximum number of keys per node. -/
def ORDER : Nat := 8

/-- `MIN_KEYS = (ORDER + 1).div_ceil(2) - 1 = 4`. -/
def MIN_KEYS : Nat := (ORDER + 1 + 1) / 2 - 1

mutual
/-- A node of the B-tree: `keys: ArrayVec<u64, 8>`, `values: ArrayVec<V, 8>`,
`children: ArrayVec<Box<Node>, 9>`.  The bounded-capacity vectors are plain
lists here (all operations below are exercised within capacity on well-formed
trees); the children are a mutual inductive so that every tree operation is
structurally recursive. -/
inductive Node (V : Type) where
  | mk (keys : List Nat) (values : List V) (children : Forest V)
  deriving DecidableEq
inductive Forest (V : Type) where
  | nil
  | cons (head : Node V) (tail : Forest V)
  deriving DecidableEq
end

def Node.keys {V : Type} : Node V → List Nat
  | .mk ks _ _ => ks

def Node.values {V : Type} : Node V → List V
  | .mk _ vs _ => vs

def Node.children {V : Type} : Node V → Forest V
  | .mk _ _ cs => cs

/-- `Node::is_leaf`: the node has no children. -/
def Node.isLeaf {V : Type} (n : Node V) : Bool :=
  match n.children with
  | .nil => true
  | .cons _ _ => false

def Forest.length {V : Type} : Forest V → Nat
  | .nil => 0
  | .cons _ rest => rest.length + 1

def Forest.get? {V : Type} : Forest V → Nat → Option (Node V)
  | .nil, _ => none
  | .cons c _, 0 => some c
  | .cons _ rest, i + 1 => rest.get? i

/-- Replace the node at an index (no-op when out of range, like
`List.set`). -/
def Forest.set {V : Type} : Forest V → Nat → Node V → Forest V
  | .nil, _, _ => .nil
  | .cons _ rest, 0, n => .cons n rest
  | .cons c rest, i + 1, n => .cons c (rest.set i n)

/-- `ArrayVec::insert` on the children vector (no-op when the index is past
the end, which no call site reaches on well-formed trees). -/
def Forest.insertAt {V : Type} : Forest V → Nat → Node V → Forest V
  | f, 0, n => .cons n f
  | .nil, _ + 1, _ => .nil
  | .cons c rest, i + 1, n => .cons c (rest.insertAt i n)

/-- `ArrayVec::pop_at` / `Vec::remove` on the children vector: drop the node
at the index (no-op when out of range). -/
def Forest.eraseAt {V : Type} : Forest V → Nat → Forest V
  | .nil, _ => .nil
  | .cons _ rest, 0 => rest
  | .cons c rest, i + 1 => .cons c (rest.eraseAt i)

/-- `drain((mid + 1)..)` keeps the first `mid + 1` children. -/
def Forest.take {V : Type} : Forest V → Nat → Forest V
  | _, 0 => .nil
  | .nil, _ + 1 => .nil
  | .cons c rest, i + 1 => .cons c (rest.take i)

/-- The drained-off upper children. -/
def Forest.drop {V : Type} : Forest V → Nat → Forest V
  | f, 0 => f
  | .nil, _ + 1 => .nil
  | .cons _ rest, i + 1 => rest.drop i

def Forest.append {V : Type} : Forest V → Forest V → Forest V
  | .nil, g => g
  | .cons c rest, g => .cons c (rest.append g)

/-- Number of keys strictly below `k`.  On the sorted duplicate-free key
lists every well-formed node carries, `slice::binary_search(&k)` returns
`Ok(lowerBound ks k)` when the key is present (checked by `keyAt`) and
`Err(lowerBound ks k)` otherwise, which is how every call site below reads
it. -/
def lowerBound (ks : List Nat) (k : Nat) : Nat :=
  (ks.filter (fun x => decide (x < k))).length

/-- Whether the key sits at its lower-bound position (the `Ok` case of
`binary_search` on a sorted list). -/
def keyAt (ks : List Nat) (k : Nat) : Bool :=
  decide (ks.get? (lowerBound ks k) = some k)

/-! ### Lookup (`OrderedMap::get` / `get_mut`, `mod.rs`) -/

mutual
/-- `get_recursive` (and `get_mut_recursive`, whose observable behaviour is
the same): binary-search the node, return the value on a hit, otherwise
recurse into the child at the insertion index (`None` from a leaf). -/
def getRec {V : Type} (k : Nat) : Node V → Option V
  | .mk ks vs cs =>
      let i := lowerBound ks k
      if keyAt ks k then vs.get? i
      else getChild k i cs
/-- `node.children.get(child_idx)?` followed by the recursive call. -/
def getChild {V : Type} (k : Nat) : Nat → Forest V → Option V
  | _, .nil => none
  | 0, .cons c _ => getRec k c
  | i + 1, .cons _ rest => getChild k i rest
end

/-! ### Floor lookup (`OrderedMap::get_nearest_floor`, `mod.rs`) -/

/-- The candidate update in `get_nearest_floor_recursive`: the preceding
key/value pair replaces `best` when its key is strictly larger. -/
def bestCand {V : Type} (best : Option (Nat × V)) (ck : Nat) (cv : V) :
    Option (Nat × V) :=
  match best with
  | none => some (ck, cv)
  | some (bk, bv) => if bk < ck then some (ck, cv) else some (bk, bv)

mutual
/-- `get_nearest_floor_recursive`: on an exact hit return `(key, value)`;
otherwise, when the insertion index is positive, consider the preceding
key/value pair as a candidate, replacing `best` when strictly larger; then
descend (returning `best` from a leaf). -/
def gnfRec {V : Type} [Inhabited V] (q : Nat) (best : Option (Nat × V)) :
    Node V → Option (Nat × V)
  | .mk ks vs cs =>
      let i := lowerBound ks q
      if keyAt ks q then some (q, vs.getD i default)
      else
        let best2 :=
          if 0 < i then bestCand best (ks.getD (i - 1) 0) (vs.getD (i - 1) default)
          else best
        gnfChild q best2 i cs
/-- `match node.children.get(idx) / Some => recurse, None => best`. -/
def gnfChild {V : Type} [Inhabited V] (q : Nat) (best : Option (Nat × V)) :
    Nat → Forest V → Option (Nat × V)
  | _, .nil => best
  | 0, .cons c _ => gnfRec q best c
  | i + 1, .cons _ rest => gnfChild q best i rest
end

/-- `OrderedMap::get_nearest_floor`. -/
def getNearestFloor {V : Type} [Inhabited V] (t : Node V) (q : Nat) : Option (Nat × V) :=
  gnfRec q none t

/-! ### Insert (`insert.rs`) -/

/-- `SplitInfo`: the promoted key/value pair and the freshly allocated right
node. -/
structure SplitInfo (V : Type) where
  promotedKey : Nat
  promotedValue : V
  newNode : Node V
  deriving DecidableEq

/-- `OrderedMap::split_node`, acting on the full node's fields; returns the
updated left node and the `SplitInfo`.  The `Ordering::Less` arm is
translated literally from the source, including its use of the *already
shortened* `node.keys.len()` when removing the promoted value: with
`lk.length = mid + 1`, the promoted key is `lk[mid]` but the promoted value
is `lv[mid - 1]`.  (`drain` of the upper children of a leaf equals the
source's `is_leaf` branch returning an empty vector.) -/
def splitNode {V : Type} [Inhabited V] (ks : List Nat) (vs : List V) (cs : Forest V)
    (idx : Nat) (key : Nat) (value : V) (internalInsertChild : Option (Node V)) :
    Node V × SplitInfo V :=
  let mid := ORDER / 2
  let newNodeChildren := cs.drop (mid + 1)
  let newNodeChildren :=
    match internalInsertChild with
    | some child => newNodeChildren.insertAt (idx - mid) child
    | none => newNodeChildren
  let leftChildren := cs.take (mid + 1)
  let newKeys := ks.drop mid
  let newValues := vs.drop mid
  let leftKeys := ks.take mid
  let leftValues := vs.take mid
  if idx = mid then
    (Node.mk leftKeys leftValues leftChildren,
      ⟨key, value, Node.mk newKeys newValues newNodeChildren⟩)
  else if idx < mid then
    let lk := leftKeys.insertIdx idx key
    let lv := leftValues.insertIdx idx value
    let promotedKey := lk.getD (lk.length - 1) 0
    let lk2 := lk.eraseIdx (lk.length - 1)
    let promotedValue := lv.getD (lk2.length - 1) default
    let lv2 := lv.eraseIdx (lk2.length - 1)
    (Node.mk lk2 lv2 leftChildren,
      ⟨promotedKey, promotedValue, Node.mk newKeys newValues newNodeChildren⟩)
  else
    let nk := newKeys.insertIdx (idx - mid) key
    let nv := newValues.insertIdx (idx - mid) value
    let promotedKey := nk.getD 0 0
    let nk2 := nk.eraseIdx 0
    let promotedValue := nv.getD 0 default
    let nv2 := nv.eraseIdx 0
    (Node.mk leftKeys leftValues leftChildren,
      ⟨promotedKey, promotedValue, Node.mk nk2 nv2 newNodeChildren⟩)

mutual
/-- `insert_recursive`: update in place on a hit; insert into a leaf with
room; split a full leaf; otherwise recurse, then receive a possible split
from the child and either place it here or split this node too. -/
def insertRec {V : Type} [Inhabited V] (k : Nat) (v : V) :
    Node V → Node V × Option (SplitInfo V)
  | .mk ks vs cs =>
      let i := lowerBound ks k
      if keyAt ks k then
        (Node.mk ks (vs.set i v) cs, none)
      else
        match cs with
        | .nil =>
            if ks.length < ORDER then
              (Node.mk (ks.insertIdx i k) (vs.insertIdx i v) .nil, none)
            else
              let r := splitNode ks vs .nil i k v none
              (r.1, some r.2)
        | .cons c rest =>
            let r := insertChild k v i (.cons c rest)
            match r.2 with
            | none => (Node.mk ks vs r.1, none)
            | some si =>
                if ks.length < ORDER then
                  (Node.mk (ks.insertIdx i si.promotedKey)
                    (vs.insertIdx i si.promotedValue)
                    (r.1.insertAt (i + 1) si.newNode), none)
                else
                  let r2 := splitNode ks vs r.1 i si.promotedKey si.promotedValue
                    (some si.newNode)
                  (r2.1, some r2.2)
/-- The recursive call into `children[idx]` (`expect`-unreachable when the
child is missing; the forest is returned unchanged in that case). -/
def insertChild {V : Type} [Inhabited V] (k : Nat) (v : V) :
    Nat → Forest V → Forest V × Option (SplitInfo V)
  | _, .nil => (.nil, none)
  | 0, .cons c rest =>
      let r := insertRec k v c
      (.cons r.1 rest, r.2)
  | i + 1, .cons c rest =>
      let r := insertChild k v i rest
      (.cons c r.1, r.2)
end

/-- `OrderedMap::insert`: run the recursive insert on the root; when the root
split, build a new root holding the promoted pair with the old root and the
new node as its two children. -/
def insert {V : Type} [Inhabited V] (t : Node V) (k : Nat) (v : V) : Node V :=
  let r := insertRec k v t
  match r.2 with
  | none => r.1
  | some si =>
      Node.mk [si.promotedKey] [si.promotedValue] (.cons r.1 (.cons si.newNode .nil))

/-! ### Remove (`remove.rs`) -/

structure RemovalInfo (V : Type) where
  value : V
  underflow : Bool
  deriving DecidableEq

/-- `replace_from_left`: with the key to remove at `idx` of an internal node,
check the left child (`children[idx]`) has at least `MIN_KEYS` keys (the
source's guard is `>= MIN_KEYS`), pop its last key/value pair and overwrite
the removed pair with it.  Returns the removed value and the updated node, or
`none` when the guard fails. -/
def replaceFromLeft {V : Type} [Inhabited V] (ks : List Nat) (vs : List V)
    (cs : Forest V) (idx : Nat) : Option (V × Node V) :=
  match cs.get? idx with
  | none => none
  | some leftChild =>
      if MIN_KEYS ≤ leftChild.keys.length then
        let leftKey := (leftChild.keys.getLast?).getD 0
        let leftValue := (leftChild.values.getLast?).getD default
        let leftChild2 :=
          Node.mk leftChild.keys.dropLast leftChild.values.dropLast leftChild.children
        let removedValue := vs.getD idx default
        some (removedValue,
          Node.mk (ks.set idx leftKey) (vs.set idx leftValue) (cs.set idx leftChild2))
      else none

/-- `replace_from_right`: symmetric, taking the first pair of
`children[idx + 1]` (the source's guard is again `>= MIN_KEYS`). -/
def replaceFromRight {V : Type} [Inhabited V] (ks : List Nat) (vs : List V)
    (cs : Forest V) (idx : Nat) : Option (V × Node V) :=
  match cs.get? (idx + 1) with
  | none => none
  | some rightChild =>
      if MIN_KEYS ≤ rightChild.keys.length then
        let rightKey := rightChild.keys.getD 0 0
        let rightValue := rightChild.values.getD 0 default
        let rightChild2 :=
          Node.mk (rightChild.keys.eraseIdx 0) (rightChild.values.eraseIdx 0)
            rightChild.children
        let removedValue := vs.getD idx default
        some (removedValue,
          Node.mk (ks.set idx rightKey) (vs.set idx rightValue)
            (cs.set (idx + 1) rightChild2))
      else none

/-- `rotate_from_left`: fix an underflowed `children[child_idx]` by popping
the last pair of its left sibling (guard: the sibling keeps `>= MIN_KEYS`
keys *before* popping, per the source), moving the separating parent pair
down into the child and the sibling pair up into the parent. -/
def rotateFromLeft {V : Type} [Inhabited V] (ks : List Nat) (vs : List V)
    (cs : Forest V) (childIdx : Nat) : Option (Node V) :=
  if childIdx = 0 then none
  else
    match cs.get? (childIdx - 1) with
    | none => none
    | some leftSibling =>
        if leftSibling.keys.length < MIN_KEYS then none
        else
          let leftKey := (leftSibling.keys.getLast?).getD 0
          let leftValue := (leftSibling.values.getLast?).getD default
          let ls2 := Node.mk leftSibling.keys.dropLast leftSibling.values.dropLast
            leftSibling.children
          let nodeKey := ks.getD (childIdx - 1) 0
          let nodeValue := vs.getD (childIdx - 1) default
          let ks2 := ks.set (childIdx - 1) leftKey
          let vs2 := vs.set (childIdx - 1) leftValue
          let cs2 := cs.set (childIdx - 1) ls2
          match cs2.get? childIdx with
          | none => none
          | some child =>
              let child2 := Node.mk (child.keys.insertIdx 0 nodeKey)
                (child.values.insertIdx 0 nodeValue) child.children
              some (Node.mk ks2 vs2 (cs2.set childIdx child2))

/-- `rotate_from_right`: symmetric, taking the first pair of the right
sibling and pushing the separating parent pair onto the end of the child. -/
def rotateFromRight {V : Type} [Inhabited V] (ks : List Nat) (vs : List V)
    (cs : Forest V) (childIdx : Nat) : Option (Node V) :=
  if ks.length ≤ childIdx then none
  else
    match cs.get? (childIdx + 1) with
    | none => none
    | some rightSibling =>
        if rightSibling.keys.length < MIN_KEYS then none
        else
          let rightKey := rightSibling.keys.getD 0 0
          let rightValue := rightSibling.values.getD 0 default
          let rs2 := Node.mk (rightSibling.keys.eraseIdx 0)
            (rightSibling.values.eraseIdx 0) rightSibling.children
          let nodeKey := ks.getD childIdx 0
          let nodeValue := vs.getD childIdx default
          let ks2 := ks.set childIdx rightKey
          let vs2 := vs.set childIdx rightValue
          let cs2 := cs.set (childIdx + 1) rs2
          match cs2.get? childIdx with
          | none => none
          | some child =>
              let child2 := Node.mk (child.keys ++ [nodeKey])
                (child.values ++ [nodeValue]) child.children
              some (Node.mk ks2 vs2 (cs2.set childIdx child2))

/-- `merge_with_sibling`: fuse the underflowed `children[child_idx]` with a
sibling and the separating parent pair into one node (left sibling when one
exists, else the right sibling). -/
def mergeWithSibling {V : Type} [Inhabited V] (ks : List Nat) (vs : List V)
    (cs : Forest V) (childIdx : Nat) : Node V :=
  if 0 < childIdx then
    let child := (cs.get? childIdx).getD (Node.mk [] [] .nil)
    let cs1 := cs.eraseAt childIdx
    let nodeKey := ks.getD (childIdx - 1) 0
    let nodeValue := vs.getD (childIdx - 1) default
    let ks2 := ks.eraseIdx (childIdx - 1)
    let vs2 := vs.eraseIdx (childIdx - 1)
    match cs1.get? (childIdx - 1) with
    | none => Node.mk ks2 vs2 cs1
    | some leftSibling =>
        let ls2 := Node.mk (leftSibling.keys ++ nodeKey :: child.keys)
          (leftSibling.values ++ nodeValue :: child.values)
          (leftSibling.children.append child.children)
        Node.mk ks2 vs2 (cs1.set (childIdx - 1) ls2)
  else
    let rightSibling := (cs.get? (childIdx + 1)).getD (Node.mk [] [] .nil)
    let cs1 := cs.eraseAt (childIdx + 1)
    let nodeKey := ks.getD childIdx 0
    let nodeValue := vs.getD childIdx default
    let ks2 := ks.eraseIdx childIdx
    let vs2 := vs.eraseIdx childIdx
    match cs1.get? childIdx with
    | none => Node.mk ks2 vs2 cs1
    | some child =>
        let child2 := Node.mk (child.keys ++ nodeKey :: rightSibling.keys)
          (child.values ++ nodeValue :: rightSibling.values)
          (child.children.append rightSibling.children)
        Node.mk ks2 vs2 (cs1.set childIdx child2)

mutual
/-- `remove_recursive`: on a hit in a leaf, remove in place and report
underflow; on a hit in an internal node, try `replace_from_left`, then
`replace_from_right`, else remove in place; on a miss, recurse, then fix a
reported underflow with `rotate_from_left`, `rotate_from_right`, or
`merge_with_sibling`. -/
def removeRec {V : Type} [Inhabited V] (k : Nat) :
    Node V → Node V × Option (RemovalInfo V)
  | .mk ks vs cs =>
      let i := lowerBound ks k
      if keyAt ks k then
        match cs with
        | .nil =>
            let v := vs.getD i default
            let ks2 := ks.eraseIdx i
            (Node.mk ks2 (vs.eraseIdx i) .nil,
              some ⟨v, decide (ks2.length < MIN_KEYS)⟩)
        | .cons c rest =>
            match replaceFromLeft ks vs (.cons c rest) i with
            | some (v, node2) => (node2, some ⟨v, false⟩)
            | none =>
                match replaceFromRight ks vs (.cons c rest) i with
                | some (v, node2) => (node2, some ⟨v, false⟩)
                | none =>
                    let v := vs.getD i default
                    let ks2 := ks.eraseIdx i
                    (Node.mk ks2 (vs.eraseIdx i) (.cons c rest),
                      some ⟨v, decide (ks2.length < MIN_KEYS)⟩)
      else
        match cs.get? i with
        | none => (Node.mk ks vs cs, none)
        | some _ =>
            let r := removeChild k i cs
            match r.2 with
            | none => (Node.mk ks vs r.1, none)
            | some ri =>
                if ri.underflow then
                  match rotateFromLeft ks vs r.1 i with
                  | some node2 => (node2, some ⟨ri.value, false⟩)
                  | none =>
                      match rotateFromRight ks vs r.1 i with
                      | some node2 => (node2, some ⟨ri.value, false⟩)
                      | none =>
                          let node2 := mergeWithSibling ks vs r.1 i
                          (node2, some ⟨ri.value, decide (node2.keys.length < MIN_KEYS)⟩)
                else (Node.mk ks vs r.1, some ⟨ri.value, false⟩)
/-- The recursive call into `children[child_idx]`. -/
def removeChild {V : Type} [Inhabited V] (k : Nat) :
    Nat → Forest V → Forest V × Option (RemovalInfo V)
  | _, .nil => (.nil, none)
  | 0, .cons c rest =>
      let r := removeRec k c
      (.cons r.1 rest, r.2)
  | i + 1, .cons c rest =>
      let r := removeChild k i rest
      (.cons c r.1, r.2)
end

/-- `OrderedMap::remove`: run the recursive removal on the root; when the
root underflowed to zero keys, replace a leaf root by a fresh empty node, or
promote the single remaining child. -/
def remove {V : Type} [Inhabited V] (t : Node V) (k : Nat) : Option V × Node V :=
  let r := removeRec k t
  match r.2 with
  | none => (none, r.1)
  | some ri =>
      if ri.underflow && r.1.keys.isEmpty then
        match r.1.children with
        | .nil => (some ri.value, Node.mk [] [] .nil)
        | .cons c _ => (some ri.value, c)
      else (some ri.value, r.1)


/-! ### Well-formedness, the in-order listing, and the spec-side floor -/

/-- Strictly ascending key list. -/
def sortedLt : List Nat → Bool
  | [] => true
  | [_] => true
  | a :: b :: rest => decide (a < b) && sortedLt (b :: rest)

/-- `k` lies strictly inside the open interval given by the optional
bounds. -/
def inBounds (lo hi : Option Nat) (k : Nat) : Bool :=
  (match lo with
   | none => true
   | some l => decide (l < k)) &&
  (match hi with
   | none => true
   | some h => decide (k < h))

mutual
/-- The B-tree invariants of §4.3, relative to open key bounds `(lo, hi)` and
a leaf depth `d`: keys strictly ascending and inside the bounds, one value
per key, at most `ORDER` keys, at least `MIN_KEYS` keys in non-root nodes,
children either absent (`d = 0`) or one more than the keys with every child
well-formed between the adjacent separators at depth `d - 1` (which makes
every leaf sit at the same depth). -/
def wfNode {V : Type} (d : Nat) (lo hi : Option Nat) (isRoot : Bool) : Node V → Bool
  | .mk ks vs cs =>
      sortedLt ks &&
      ks.all (fun k => inBounds lo hi k) &&
      decide (vs.length = ks.length) &&
      decide (ks.length ≤ ORDER) &&
      (isRoot || decide (MIN_KEYS ≤ ks.length)) &&
      (match d, cs with
       | 0, .nil => true
       | dc + 1, .cons c rest => wfChildren dc lo ks hi (.cons c rest)
       | _, _ => false)
/-- Children interleaved with separator keys: child `i` lives strictly
between key `i - 1` and key `i`. -/
def wfChildren {V : Type} (d : Nat) (lo : Option Nat) :
    List Nat → Option Nat → Forest V → Bool
  | [], hi, .cons c .nil => wfNode d lo hi false c
  | k :: ks, hi, .cons c rest =>
      wfNode d lo (some k) false c && wfChildren d (some k) ks hi rest
  | _, _, _ => false
end

mutual
def nodeDepth {V : Type} : Node V → Nat
  | .mk _ _ cs => forestDepth cs
def forestDepth {V : Type} : Forest V → Nat
  | .nil => 0
  | .cons c _ => nodeDepth c + 1
end

/-- Well-formedness of a whole map (the root is exempt from the minimum key
count). -/
def WFb {V : Type} (t : Node V) : Bool := wfNode (nodeDepth t) none none true t

def WF {V : Type} (t : Node V) : Prop := WFb t = true

mutual
/-- The in-order key/value listing of a subtree. -/
def toList {V : Type} : Node V → List (Nat × V)
  | .mk ks vs cs => seqList ks vs cs
/-- In-order interleaving of children and separator pairs. -/
def seqList {V : Type} : List Nat → List V → Forest V → List (Nat × V)
  | ks, vs, .nil => ks.zip vs
  | ks, vs, .cons c rest =>
      toList c ++
        (match ks, vs with
         | k :: ks2, v :: vs2 => (k, v) :: seqList ks2 vs2 rest
         | _, _ => [])
end

/-- The specification's floor: the pair with the largest key not exceeding
the query, read off the in-order association list (the last pair that the
`≤ q` filter keeps). -/
def specFloor {V : Type} (l : List (Nat × V)) (q : Nat) : Option (Nat × V) :=
  (l.filter (fun p => decide (p.1 ≤ q))).getLast?

mutual
/-- Mutual structural induction for `Node`/`Forest`, packaged so it can be
applied with plain positional arguments. -/
def nodeInd {V : Type} (P : Node V → Prop) (Q : Forest V → Prop)
    (hmk : ∀ ks vs cs, Q cs → P (.mk ks vs cs))
    (hnil : Q .nil)
    (hcons : ∀ c rest, P c → Q rest → Q (.cons c rest)) :
    ∀ n, P n
  | .mk ks vs cs => hmk ks vs cs (forestInd P Q hmk hnil hcons cs)
def forestInd {V : Type} (P : Node V → Prop) (Q : Forest V → Prop)
    (hmk : ∀ ks vs cs, Q cs → P (.mk ks vs cs))
    (hnil : Q .nil)
    (hcons : ∀ c rest, P c → Q rest → Q (.cons c rest)) :
    ∀ f, Q f
  | .nil => hnil
  | .cons c rest =>
      hcons c rest (nodeInd P Q hmk hnil hcons c) (forestInd P Q hmk hnil hcons rest)
end

/-! ### Claims C3, C4, C5: concrete runs exhibiting the two removal/split
slips -/

/-- The well-formed map `{5}/[{1,2,3,4},{6,7,8,9}]` (values: key × 10). -/
def ex3 : Node Nat :=
  .mk [5] [50]
    (.cons (.mk [1, 2, 3, 4] [10, 20, 30, 40] .nil)
      (.cons (.mk [6, 7, 8, 9] [60, 70, 80, 90] .nil) .nil))

/-- **C3** (evaluating the code at the failing input).  The claim says the
B-tree invariants — in particular, every non-root node keeping at least
`MIN_KEYS = 4` keys — hold after every operation on a well-formed tree.
`ex3` is well-formed, but `remove ex3 5` reaches `replace_from_left`, whose
guard `left_child.keys.len() >= MIN_KEYS` (the spec and the function's own
doc comment require *strictly more than* MIN) lets it pop from a left child
holding exactly 4 keys: the resulting tree has a 3-key non-root leaf and is
no longer well-formed, while the removal reports no underflow. -/
theorem remove_breaks_min_keys_invariant :
    WFb ex3 = true ∧
    (remove ex3 5).1 = some 50 ∧
    (remove ex3 5).2 =
      Node.mk [4] [40]
        (.cons (.mk [1, 2, 3] [10, 20, 30] .nil)
          (.cons (.mk [6, 7, 8, 9] [60, 70, 80, 90] .nil) .nil)) ∧
    WFb (remove ex3 5).2 = false :=
  ⟨by decide, by decide, by decide, by decide⟩

/-- **C4** (evaluating the code at the failing input).  The claim says that
when `split_node` splits a full node with insertion index `idx < mid`, the
promoted pair is the last key of the left node *with that key's own value*,
the left node staying correctly paired.  Splitting the full leaf with keys
`10..80` and values `1..8` at `idx = 1` with the new pair `(15, 99)`: the
promoted key is `40`, but the promoted value is `3` — the value bound to key
`30` — because the source removes `values[keys.len() - 1]` *after* already
shortening `keys`; the left node keeps values `[1, 99, 2, 4]`, pairing key
`30` with key `40`'s value. -/
theorem split_node_less_arm_mispairs_promoted_value :
    splitNode [10, 20, 30, 40, 50, 60, 70, 80] [1, 2, 3, 4, 5, 6, 7, 8]
        (Forest.nil : Forest Nat) 1 15 99 none =
      (Node.mk [10, 15, 20, 30] [1, 99, 2, 4] .nil,
        ⟨40, 3, Node.mk [50, 60, 70, 80] [5, 6, 7, 8] .nil⟩) ∧
    ([10, 20, 30, 40, 50, 60, 70, 80].zip [1, 2, 3, 4, 5, 6, 7, 8]).contains (40, 4) :=
  ⟨by decide, by decide⟩

/-- The full root leaf with keys `10..80` and values `1..8`. -/
def ex5 : Node Nat := .mk [10, 20, 30, 40, 50, 60, 70, 80] [1, 2, 3, 4, 5, 6, 7, 8] .nil

/-- **C5** (evaluating the code at the failing input).  The claim says that
for a map not containing `k`, `insert k v` followed by `remove k` returns `v`
and restores the map.  `ex5` is well-formed and does not contain 35, yet
`remove (insert ex5 35 99) 35` returns `some 4` — the value that belonged to
key 40 — not `some 99`, and the resulting tree differs from `ex5`: the
insert's split mispairs the values (C4), so key 35 ends up bound to 4 while
the promoted pair `(40, 99)` carries the fresh value. -/
theorem insert_remove_roundtrip_fails :
    WFb ex5 = true ∧
    (toList ex5).all (fun p => decide (p.1 ≠ 35)) ∧
    insert ex5 35 99 =
      Node.mk [40] [99]
        (.cons (.mk [10, 20, 30, 35] [1, 2, 3, 4] .nil)
          (.cons (.mk [50, 60, 70, 80] [5, 6, 7, 8] .nil) .nil)) ∧
    (remove (insert ex5 35 99) 35).1 = some 4 ∧
    (remove (insert ex5 35 99) 35).1 ≠ some 99 ∧
    (remove (insert ex5 35 99) 35).2 ≠ ex5 :=
  ⟨by decide, by decide, by decide, by decide, by decide, by decide⟩


/-! ### List-level facts about `specFloor` and `lowerBound` -/

theorem getLast?_append_or {α : Type} (l1 l2 : List α) :
    (l1 ++ l2).getLast? = l2.getLast?.or l1.getLast? := by
  cases l2 with
  | nil => simp
  | cons b t =>
      rw [List.getLast?_append_cons]
      cases h : (b :: t).getLast? with
      | none => simp [List.getLast?] at h
      | some x => simp [Option.or]

theorem specFloor_append {V : Type} (l1 l2 : List (Nat × V)) (q : Nat) :
    specFloor (l1 ++ l2) q =
      match specFloor l2 q with
      | some p => some p
      | none => specFloor l1 q := by
  unfold specFloor
  rw [List.filter_append, getLast?_append_or]
  cases h : (l2.filter (fun p => decide (p.1 ≤ q))).getLast? with
  | none => simp [Option.or]
  | some x => simp [Option.or]

theorem specFloor_cons_le {V : Type} (p : Nat × V) (l : List (Nat × V)) (q : Nat)
    (h : p.1 ≤ q) :
    specFloor (p :: l) q =
      match specFloor l q with
      | some r => some r
      | none => some p := by
  unfold specFloor
  rw [List.filter_cons, if_pos (by simpa using h)]
  rw [show (p :: l.filter fun r => decide (r.1 ≤ q)) =
    [p] ++ l.filter (fun r => decide (r.1 ≤ q)) from rfl]
  rw [getLast?_append_or]
  cases hf : (l.filter (fun r => decide (r.1 ≤ q))).getLast? with
  | none => simp [Option.or]
  | some x => simp [Option.or]

theorem specFloor_cons_gt {V : Type} (p : Nat × V) (l : List (Nat × V)) (q : Nat)
    (h : q < p.1) :
    specFloor (p :: l) q = specFloor l q := by
  unfold specFloor
  rw [List.filter_cons, if_neg (by simpa using Nat.not_le_of_lt h)]

theorem specFloor_none_of_all_gt {V : Type} (l : List (Nat × V)) (q : Nat)
    (h : ∀ p ∈ l, q < p.1) : specFloor l q = none := by
  unfold specFloor
  have : l.filter (fun p => decide (p.1 ≤ q)) = [] := by
    rw [List.filter_eq_nil_iff]
    intro p hp
    simpa using Nat.not_le_of_lt (h p hp)
  rw [this]
  rfl

theorem specFloor_char {V : Type} :
    ∀ (l : List (Nat × V)) (q : Nat), List.Pairwise (fun p r => p.1 < r.1) l →
      (∀ p, specFloor l q = some p →
        p ∈ l ∧ p.1 ≤ q ∧ ∀ r ∈ l, r.1 ≤ q → r.1 ≤ p.1) ∧
      (specFloor l q = none → ∀ p ∈ l, q < p.1) := by
  intro l
  induction l with
  | nil =>
      intro q _
      refine ⟨fun p hp => ?_, fun _ p hp => absurd hp (List.not_mem_nil p)⟩
      simp [specFloor] at hp
  | cons p0 l ih =>
      intro q hpw
      rw [List.pairwise_cons] at hpw
      obtain ⟨hp0, hpw2⟩ := hpw
      obtain ⟨ihs, ihn⟩ := ih q hpw2
      by_cases hle : p0.1 ≤ q
      · rw [specFloor_cons_le p0 l q hle]
        constructor
        · intro p hp
          cases hsf : specFloor l q with
          | none =>
              rw [hsf] at hp
              simp at hp
              subst hp
              refine ⟨List.mem_cons_self _ _, hle, ?_⟩
              intro r hr hrq
              rcases List.mem_cons.mp hr with h1 | h2
              · rw [h1]
              · exact absurd hrq (Nat.not_le_of_lt (ihn hsf r h2))
          | some x =>
              rw [hsf] at hp
              simp at hp
              subst hp
              obtain ⟨hmem, hxq, hmax⟩ := ihs x hsf
              refine ⟨List.mem_cons_of_mem _ hmem, hxq, ?_⟩
              intro r hr hrq
              rcases List.mem_cons.mp hr with h1 | h2
              · rw [h1]
                exact Nat.le_of_lt (hp0 x hmem)
              · exact hmax r h2 hrq
        · intro hnone
          cases hsf : specFloor l q with
          | none => rw [hsf] at hnone; exact Option.noConfusion hnone
          | some x => rw [hsf] at hnone; exact Option.noConfusion hnone
      · have hgt : q < p0.1 := Nat.lt_of_not_le hle
        rw [specFloor_cons_gt p0 l q hgt]
        have hall : ∀ r ∈ l, q < r.1 := fun r hr => Nat.lt_trans hgt (hp0 r hr)
        have hnone : specFloor l q = none := specFloor_none_of_all_gt l q hall
        rw [hnone]
        refine ⟨fun p hp => Option.noConfusion hp, fun _ p hp => ?_⟩
        rcases List.mem_cons.mp hp with h1 | h2
        · rw [h1]; exact hgt
        · exact hall p h2

theorem lowerBound_nil (k : Nat) : lowerBound [] k = 0 := rfl

theorem lowerBound_cons (a : Nat) (l : List Nat) (k : Nat) :
    lowerBound (a :: l) k =
      if a < k then lowerBound l k + 1 else lowerBound l k := by
  unfold lowerBound
  rw [List.filter_cons]
  by_cases h : a < k
  · rw [if_pos (by simpa using h), if_pos h]
    rfl
  · rw [if_neg (by simpa using h), if_neg h]

theorem lowerBound_le_length (ks : List Nat) (k : Nat) :
    lowerBound ks k ≤ ks.length := by
  unfold lowerBound
  exact List.length_filter_le _ _

theorem sortedLt_cons :
    ∀ (l : List Nat) (a : Nat), sortedLt (a :: l) = true →
      sortedLt l = true ∧ ∀ x ∈ l, a < x := by
  intro l
  induction l with
  | nil => intro a _; exact ⟨rfl, fun x hx => absurd hx (List.not_mem_nil x)⟩
  | cons b rest ih =>
      intro a h
      have h2 : a < b ∧ sortedLt (b :: rest) = true := by
        simpa [sortedLt] using h
      obtain ⟨hab, hb⟩ := h2
      obtain ⟨_, hrest⟩ := ih b hb
      refine ⟨hb, fun x hx => ?_⟩
      rcases List.mem_cons.mp hx with h1 | h2
      · omega
      · exact Nat.lt_trans hab (hrest x h2)

theorem lowerBound_zero_of_not_lt {a : Nat} {l : List Nat} {k : Nat}
    (hs : sortedLt (a :: l) = true) (h : ¬ a < k) : lowerBound (a :: l) k = 0 := by
  rw [lowerBound_cons, if_neg h]
  unfold lowerBound
  rw [List.length_eq_zero, List.filter_eq_nil_iff]
  intro x hx
  have := (sortedLt_cons l a hs).2 x hx
  simp only [decide_eq_true_eq]
  omega

/-- On a sorted list, `binary_search` finds every member. -/
theorem keyAt_of_mem :
    ∀ (ks : List Nat) (k : Nat), sortedLt ks = true → k ∈ ks → keyAt ks k = true := by
  intro ks
  induction ks with
  | nil => intro k _ hk; exact absurd hk (List.not_mem_nil k)
  | cons a l ih =>
      intro k hs hk
      obtain ⟨hsl, hlt⟩ := sortedLt_cons l a hs
      rcases List.mem_cons.mp hk with h1 | h2
      · subst h1
        unfold keyAt
        rw [lowerBound_zero_of_not_lt hs (by omega)]
        simp
      · have hak : a < k := hlt k h2
        unfold keyAt
        rw [lowerBound_cons, if_pos hak]
        have := ih k hsl h2
        unfold keyAt at this
        simpa using this

theorem keyAt_cons_lt {a : Nat} {l : List Nat} {k : Nat} (h : a < k) :
    keyAt (a :: l) k = keyAt l k := by
  unfold keyAt
  rw [lowerBound_cons, if_pos h]
  rfl

/-- Every key position below the lower bound holds a key `< q`. -/
theorem lowerBound_prefix_lt :
    ∀ (ks : List Nat) (q j : Nat), sortedLt ks = true → j < lowerBound ks q →
      ks.getD j 0 < q := by
  intro ks
  induction ks with
  | nil => intro q j _ hj; rw [lowerBound_nil] at hj; omega
  | cons a l ih =>
      intro q j hs hj
      obtain ⟨hsl, _⟩ := sortedLt_cons l a hs
      by_cases hak : a < q
      · rw [lowerBound_cons, if_pos hak] at hj
        cases j with
        | zero => simpa using hak
        | succ j2 =>
            rw [List.getD_cons_succ]
            exact ih q j2 hsl (by omega)
      · rw [lowerBound_zero_of_not_lt hs hak] at hj
        omega

/-- A pair read at matching positions of two lists is a member of their
zip. -/
theorem mem_zip_getD {V : Type} [Inhabited V] :
    ∀ (ks : List Nat) (vs : List V) (j : Nat), vs.length = ks.length →
      j < ks.length → (ks.getD j 0, vs.getD j default) ∈ ks.zip vs := by
  intro ks
  induction ks with
  | nil => intro vs j _ hj; simp at hj
  | cons a l ih =>
      intro vs j hlen hj
      cases vs with
      | nil => simp at hlen
      | cons v vs2 =>
          cases j with
          | zero => simp [List.zip_cons_cons]
          | succ j2 =>
              simp only [List.getD_cons_succ, List.zip_cons_cons]
              refine List.mem_cons_of_mem _ ?_
              exact ih vs2 j2 (by simpa using hlen) (by simpa using hj)

theorem zip_pairwise {V : Type} :
    ∀ (ks : List Nat) (vs : List V), sortedLt ks = true →
      List.Pairwise (fun p r => p.1 < r.1) (ks.zip vs) := by
  intro ks
  induction ks with
  | nil => intro vs _; simp
  | cons a l ih =>
      intro vs hs
      obtain ⟨hsl, hlt⟩ := sortedLt_cons l a hs
      cases vs with
      | nil => simp
      | cons v vs2 =>
          rw [List.zip_cons_cons, List.pairwise_cons]
          refine ⟨?_, ih vs2 hsl⟩
          intro p hp
          exact hlt p.1 (List.of_mem_zip hp).1


/-! ### Bounds and ordering of the in-order listing -/

theorem inBounds_iff {lo hi : Option Nat} {k : Nat} :
    inBounds lo hi k = true ↔
      (∀ l, lo = some l → l < k) ∧ (∀ h, hi = some h → k < h) := by
  unfold inBounds
  cases lo <;> cases hi <;> simp

theorem inBounds_weaken_hi {lo hi : Option Nat} {k x : Nat}
    (h1 : inBounds lo (some k) x = true) (h2 : inBounds lo hi k = true) :
    inBounds lo hi x = true := by
  rw [inBounds_iff] at h1 h2 ⊢
  obtain ⟨h1l, h1r⟩ := h1
  obtain ⟨h2l, h2r⟩ := h2
  have hxk : x < k := h1r k rfl
  exact ⟨h1l, fun h hh => Nat.lt_trans hxk (h2r h hh)⟩

theorem inBounds_weaken_lo {lo hi : Option Nat} {k x : Nat}
    (h1 : inBounds (some k) hi x = true) (h2 : inBounds lo hi k = true) :
    inBounds lo hi x = true := by
  rw [inBounds_iff] at h1 h2 ⊢
  obtain ⟨h1l, h1r⟩ := h1
  obtain ⟨h2l, h2r⟩ := h2
  have hkx : k < x := h1l k rfl
  exact ⟨fun l hl => Nat.lt_trans (h2l l hl) hkx, h1r⟩

/-- The statement of the bounds/ordering lemma at the node level. -/
def BoundsP {V : Type} (n : Node V) : Prop :=
  ∀ d (lo hi : Option Nat) (r : Bool), wfNode d lo hi r n = true →
    (∀ p ∈ toList n, inBounds lo hi p.1 = true) ∧
    List.Pairwise (fun p q => p.1 < q.1) (toList n)

/-- The statement of the bounds/ordering lemma at the child-sequence level. -/
def BoundsQ {V : Type} (cs : Forest V) : Prop :=
  ∀ d (lo : Option Nat) (ks : List Nat) (hi : Option Nat) (vs : List V),
    wfChildren d lo ks hi cs = true → sortedLt ks = true →
    ks.all (fun k => inBounds lo hi k) = true → vs.length = ks.length →
    (∀ p ∈ seqList ks vs cs, inBounds lo hi p.1 = true) ∧
    List.Pairwise (fun p q => p.1 < q.1) (seqList ks vs cs)

theorem boundsQ_nil {V : Type} : BoundsQ (Forest.nil (V := V)) := by
  intro d lo ks hi vs hwf _ _ _
  cases ks <;> simp [wfChildren] at hwf

theorem wfNode_mk_eq {V : Type} (d : Nat) (lo hi : Option Nat) (r : Bool)
    (ks : List Nat) (vs : List V) (cs : Forest V) :
    wfNode d lo hi r (.mk ks vs cs) =
      (sortedLt ks &&
        ks.all (fun k => inBounds lo hi k) &&
        decide (vs.length = ks.length) &&
        decide (ks.length ≤ ORDER) &&
        (r || decide (MIN_KEYS ≤ ks.length)) &&
        (match d, cs with
         | 0, .nil => true
         | dc + 1, .cons c rest => wfChildren dc lo ks hi (.cons c rest)
         | _, _ => false)) := by
  cases d <;> cases cs <;> rfl

theorem boundsP_mk {V : Type} (ks : List Nat) (vs : List V) (cs : Forest V)
    (hQ : BoundsQ cs) : BoundsP (Node.mk ks vs cs) := by
  intro d lo hi r hwf
  rw [wfNode_mk_eq] at hwf
  simp only [Bool.and_eq_true, decide_eq_true_eq] at hwf
  obtain ⟨⟨⟨⟨⟨hs, hb⟩, hlen⟩, hord⟩, hmin⟩, hmatch⟩ := hwf
  cases d with
  | zero =>
      cases cs with
      | cons c rest => simp at hmatch
      | nil =>
          rw [show toList (Node.mk ks vs (Forest.nil (V := V))) = ks.zip vs from rfl]
          constructor
          · intro p hp
            have hfst := (List.of_mem_zip hp).1
            exact (List.all_eq_true.mp hb) p.1 hfst
          · exact zip_pairwise ks vs hs
  | succ dc =>
      cases cs with
      | nil => simp at hmatch
      | cons c rest =>
          have hwfc : wfChildren dc lo ks hi (.cons c rest) = true := hmatch
          rw [show toList (Node.mk ks vs (Forest.cons c rest)) =
            seqList ks vs (.cons c rest) from rfl]
          exact hQ dc lo ks hi vs hwfc hs hb hlen

theorem boundsQ_cons {V : Type} (c : Node V) (rest : Forest V)
    (hP : BoundsP c) (hQ : BoundsQ rest) : BoundsQ (Forest.cons c rest) := by
  intro d lo ks hi vs hwf hs hb hlen
  cases ks with
  | nil =>
      cases rest with
      | cons c2 rest2 => simp [wfChildren] at hwf
      | nil =>
          have hwfc : wfNode d lo hi false c = true := by
            simpa [wfChildren] using hwf
          have hseq : seqList ([] : List Nat) vs (Forest.cons c .nil) = toList c ++ [] := rfl
          rw [hseq, List.append_nil]
          exact hP d lo hi false hwfc
  | cons k ks2 =>
      cases vs with
      | nil => simp at hlen
      | cons v vs2 =>
          have hwf2 : wfNode d lo (some k) false c = true ∧
              wfChildren d (some k) ks2 hi rest = true := by
            simpa [wfChildren, Bool.and_eq_true] using hwf
          obtain ⟨hwfc, hwfrest⟩ := hwf2
          obtain ⟨hsl2, hklt⟩ := sortedLt_cons ks2 k hs
          have hbk : inBounds lo hi k = true := (List.all_eq_true.mp hb) k (List.mem_cons_self k ks2)
          have hb2 : ks2.all (fun x => inBounds (some k) hi x) = true := by
            rw [List.all_eq_true]
            intro x hx
            have hx2 := (List.all_eq_true.mp hb) x (List.mem_cons_of_mem k hx)
            rw [inBounds_iff] at hx2 ⊢
            exact ⟨fun l hl => by cases hl; exact hklt x hx, hx2.2⟩
          obtain ⟨bndC, pwC⟩ := hP d lo (some k) false hwfc
          obtain ⟨bndS, pwS⟩ := hQ d (some k) ks2 hi vs2 hwfrest hsl2 hb2 (by simpa using hlen)
          have hseq : seqList (k :: ks2) (v :: vs2) (Forest.cons c rest) =
              toList c ++ (k, v) :: seqList ks2 vs2 rest := rfl
          rw [hseq]
          constructor
          · intro p hp
            rcases List.mem_append.mp hp with h1 | h2
            · exact inBounds_weaken_hi (bndC p h1) hbk
            · rcases List.mem_cons.mp h2 with h3 | h4
              · rw [h3]; exact hbk
              · exact inBounds_weaken_lo (bndS p h4) hbk
          · rw [List.pairwise_append]
            refine ⟨pwC, ?_, ?_⟩
            · rw [List.pairwise_cons]
              refine ⟨?_, pwS⟩
              intro p hp
              have := bndS p hp
              rw [inBounds_iff] at this
              exact this.1 k rfl
            · intro a ha b hbmem
              have hak : a.1 < k := by
                have := bndC a ha
                rw [inBounds_iff] at this
                exact this.2 k rfl
              rcases List.mem_cons.mp hbmem with h3 | h4
              · rw [h3]; exact hak
              · have hkb : k < b.1 := by
                  have := bndS b h4
                  rw [inBounds_iff] at this
                  exact this.1 k rfl
                exact Nat.lt_trans hak hkb

/-- Every pair of a well-formed subtree lies inside the subtree's bounds, and
the in-order listing is strictly increasing in the keys. -/
theorem toList_bounds_pairwise {V : Type} :
    ∀ n : Node V, BoundsP n :=
  nodeInd BoundsP BoundsQ boundsP_mk boundsQ_nil boundsQ_cons

theorem seqList_bounds_pairwise {V : Type} :
    ∀ cs : Forest V, BoundsQ cs :=
  forestInd BoundsP BoundsQ boundsP_mk boundsQ_nil boundsQ_cons


/-! ### Locating a child and its bounds -/

theorem wfChildren_length {V : Type} :
    ∀ (ks : List Nat) (cs : Forest V) (d : Nat) (lo hi : Option Nat),
      wfChildren d lo ks hi cs = true → cs.length = ks.length + 1 := by
  intro ks
  induction ks with
  | nil =>
      intro cs d lo hi hwf
      cases cs with
      | nil => simp [wfChildren] at hwf
      | cons c rest =>
          cases rest with
          | nil => rfl
          | cons c2 rest2 => simp [wfChildren] at hwf
  | cons k ks2 ih =>
      intro cs d lo hi hwf
      cases cs with
      | nil => simp [wfChildren] at hwf
      | cons c rest =>
          have hwf2 : wfNode d lo (some k) false c = true ∧
              wfChildren d (some k) ks2 hi rest = true := by
            simpa [wfChildren, Bool.and_eq_true] using hwf
          have := ih rest d (some k) hi hwf2.2
          simp [Forest.length, this, List.length_cons]

theorem Forest.get?_some_of_lt {V : Type} :
    ∀ (i : Nat) (cs : Forest V), i < cs.length → ∃ c, cs.get? i = some c := by
  intro i
  induction i with
  | zero =>
      intro cs hi
      cases cs with
      | nil => simp [Forest.length] at hi
      | cons c rest => exact ⟨c, rfl⟩
  | succ j ih =>
      intro cs hi
      cases cs with
      | nil => simp [Forest.length] at hi
      | cons c rest =>
          have : j < rest.length := by
            simp [Forest.length] at hi
            omega
          exact ih rest this

/-- Lower bound of the `i`-th child of a node. -/
def childLo (ks : List Nat) (lo : Option Nat) (i : Nat) : Option Nat :=
  if i = 0 then lo else some (ks.getD (i - 1) 0)

/-- Upper bound of the `i`-th child of a node. -/
def childHi (ks : List Nat) (hi : Option Nat) (i : Nat) : Option Nat :=
  match ks.get? i with
  | some k => some k
  | none => hi

theorem wfChildren_get {V : Type} :
    ∀ (ks : List Nat) (cs : Forest V) (d : Nat) (lo hi : Option Nat) (i : Nat) (c : Node V),
      wfChildren d lo ks hi cs = true → cs.get? i = some c →
      wfNode d (childLo ks lo i) (childHi ks hi i) false c = true := by
  intro ks
  induction ks with
  | nil =>
      intro cs d lo hi i c hwf hget
      cases cs with
      | nil => simp [wfChildren] at hwf
      | cons c0 rest =>
          cases rest with
          | cons c2 rest2 => simp [wfChildren] at hwf
          | nil =>
              cases i with
              | zero =>
                  have hc : c0 = c := by simpa [Forest.get?] using hget
                  subst hc
                  simpa [childLo, childHi, wfChildren] using hwf
              | succ j => simp [Forest.get?] at hget
  | cons k ks2 ih =>
      intro cs d lo hi i c hwf hget
      cases cs with
      | nil => simp [wfChildren] at hwf
      | cons c0 rest =>
          have hwf2 : wfNode d lo (some k) false c0 = true ∧
              wfChildren d (some k) ks2 hi rest = true := by
            simpa [wfChildren, Bool.and_eq_true] using hwf
          cases i with
          | zero =>
              have hc : c0 = c := by simpa [Forest.get?] using hget
              subst hc
              simpa [childLo, childHi] using hwf2.1
          | succ j =>
              have hget2 : rest.get? j = some c := hget
              have := ih rest d (some k) hi j c hwf2.2 hget2
              have hlo : childLo (k :: ks2) lo (j + 1) = childLo ks2 (some k) j := by
                unfold childLo
                cases j with
                | zero => simp
                | succ j2 => simp
              have hhi : childHi (k :: ks2) hi (j + 1) = childHi ks2 hi j := rfl
              rw [hlo, hhi]
              exact this

/-- The recursive-call shape of `gnfChild`. -/
theorem gnfChild_eq {V : Type} [Inhabited V] (q : Nat) (b : Option (Nat × V)) :
    ∀ (i : Nat) (cs : Forest V),
      gnfChild q b i cs =
        match cs.get? i with
        | some c => gnfRec q b c
        | none => b := by
  intro i
  induction i with
  | zero => intro cs; cases cs <;> rfl
  | succ j ih =>
      intro cs
      cases cs with
      | nil => rfl
      | cons c rest => exact ih rest

theorem gnfChild_found {V : Type} [Inhabited V] (q : Nat) (b : Option (Nat × V))
    (i : Nat) (cs : Forest V) (c : Node V) (h : cs.get? i = some c) :
    gnfChild q b i cs = gnfRec q b c := by
  rw [gnfChild_eq q b i cs, h]

/-! ### The floor of a leaf's and an internal node's listing -/

theorem zip_floor_not_found {V : Type} [Inhabited V] :
    ∀ (ks : List Nat) (vs : List V) (q : Nat), sortedLt ks = true →
      vs.length = ks.length →
      keyAt ks q = false →
      specFloor (ks.zip vs) q =
        (if 0 < lowerBound ks q then
          some (ks.getD (lowerBound ks q - 1) 0, vs.getD (lowerBound ks q - 1) default)
        else none) := by
  intro ks
  induction ks with
  | nil =>
      intro vs q _ _ _
      simp [lowerBound_nil, specFloor]
  | cons a l ih =>
      intro vs q hs hlen hka
      obtain ⟨hsl, hlt⟩ := sortedLt_cons l a hs
      cases vs with
      | nil => simp at hlen
      | cons v vs2 =>
          by_cases haq : a < q
          · have hka2 : keyAt l q = false := by
              rw [keyAt_cons_lt haq] at hka
              exact hka
            have ihv := ih vs2 q hsl (by simpa using hlen) hka2
            rw [List.zip_cons_cons, specFloor_cons_le (a, v) (l.zip vs2) q (Nat.le_of_lt haq),
              lowerBound_cons, if_pos haq]
            rw [ihv]
            by_cases hpos : 0 < lowerBound l q
            · rw [if_pos hpos, if_pos (by omega)]
              have h1 : lowerBound l q + 1 - 1 = (lowerBound l q - 1) + 1 := by omega
              rw [h1, List.getD_cons_succ, List.getD_cons_succ]
            · rw [if_neg hpos, if_pos (by omega)]
              have h1 : lowerBound l q + 1 - 1 = 0 := by omega
              rw [h1]
              rfl
          · have hlb := lowerBound_zero_of_not_lt hs haq
            have haq2 : q < a := by
              rcases Nat.lt_or_ge q a with h1 | h2
              · exact h1
              · exfalso
                have haq3 : a = q := by omega
                subst haq3
                unfold keyAt at hka
                rw [hlb] at hka
                simp at hka
            rw [hlb]
            simp only [Nat.lt_irrefl, if_false]
            apply specFloor_none_of_all_gt
            intro p hp
            have hfst := (List.of_mem_zip hp).1
            rcases List.mem_cons.mp hfst with h1 | h2
            · omega
            · have := hlt p.1 h2
              omega


theorem zip_floor_found {V : Type} [Inhabited V] :
    ∀ (ks : List Nat) (vs : List V) (q : Nat), sortedLt ks = true →
      vs.length = ks.length → keyAt ks q = true →
      specFloor (ks.zip vs) q = some (q, vs.getD (lowerBound ks q) default) := by
  intro ks
  induction ks with
  | nil => intro vs q _ _ hka; simp [keyAt, lowerBound] at hka
  | cons a l ih =>
      intro vs q hs hlen hka
      obtain ⟨hsl, hlt⟩ := sortedLt_cons l a hs
      cases vs with
      | nil => simp at hlen
      | cons v vs2 =>
          by_cases haq : a < q
          · have hka2 : keyAt l q = true := by
              rw [keyAt_cons_lt haq] at hka
              exact hka
            have ihv := ih vs2 q hsl (by simpa using hlen) hka2
            rw [List.zip_cons_cons, specFloor_cons_le (a, v) (l.zip vs2) q (Nat.le_of_lt haq),
              ihv, lowerBound_cons, if_pos haq, List.getD_cons_succ]
          · have hlb := lowerBound_zero_of_not_lt hs haq
            have haq2 : a = q := by
              unfold keyAt at hka
              rw [hlb] at hka
              simpa using hka
            subst haq2
            rw [hlb]
            have hSnone : specFloor (l.zip vs2) a = none := by
              apply specFloor_none_of_all_gt
              intro p hp
              have := hlt p.1 (List.of_mem_zip hp).1
              omega
            rw [List.zip_cons_cons, specFloor_cons_le (a, v) (l.zip vs2) a (by omega), hSnone]
            rfl

theorem seq_floor_not_found {V : Type} [Inhabited V] :
    ∀ (ks : List Nat) (vs : List V) (cs : Forest V) (d : Nat) (lo hi : Option Nat)
      (q : Nat) (c : Node V),
      wfChildren d lo ks hi cs = true →
      sortedLt ks = true →
      ks.all (fun k => inBounds lo hi k) = true →
      vs.length = ks.length →
      keyAt ks q = false →
      cs.get? (lowerBound ks q) = some c →
      specFloor (seqList ks vs cs) q =
        (match specFloor (toList c) q with
         | some p => some p
         | none =>
            if 0 < lowerBound ks q then
              some (ks.getD (lowerBound ks q - 1) 0, vs.getD (lowerBound ks q - 1) default)
            else none) := by
  intro ks
  induction ks with
  | nil =>
      intro vs cs d lo hi q c hwf _ _ _ _ hget
      cases cs with
      | nil => simp [wfChildren] at hwf
      | cons c0 rest =>
          cases rest with
          | cons c2 rest2 => simp [wfChildren] at hwf
          | nil =>
              have hc : c0 = c := by simpa [lowerBound_nil, Forest.get?] using hget
              subst hc
              have hseq : seqList ([] : List Nat) vs (Forest.cons c0 .nil) =
                  toList c0 ++ [] := by
                cases vs <;> rfl
              rw [hseq, List.append_nil, lowerBound_nil]
              cases hX : specFloor (toList c0) q <;> simp
  | cons k ks2 ih =>
      intro vs cs d lo hi q c hwf hs hb hlen hka hget
      obtain ⟨hsl2, hklt⟩ := sortedLt_cons ks2 k hs
      cases cs with
      | nil => simp [wfChildren] at hwf
      | cons c0 rest =>
          have hwf2 : wfNode d lo (some k) false c0 = true ∧
              wfChildren d (some k) ks2 hi rest = true := by
            simpa [wfChildren, Bool.and_eq_true] using hwf
          cases vs with
          | nil => simp at hlen
          | cons v vs2 =>
              have hb2 : ks2.all (fun x => inBounds (some k) hi x) = true := by
                rw [List.all_eq_true]
                intro x hx
                have hx2 := (List.all_eq_true.mp hb) x (List.mem_cons_of_mem k hx)
                rw [inBounds_iff] at hx2 ⊢
                exact ⟨fun l hl => by cases hl; exact hklt x hx, hx2.2⟩
              have hseq : seqList (k :: ks2) (v :: vs2) (Forest.cons c0 rest) =
                  toList c0 ++ (k, v) :: seqList ks2 vs2 rest := rfl
              have hSbnd : ∀ p ∈ seqList ks2 vs2 rest, inBounds (some k) hi p.1 = true :=
                (seqList_bounds_pairwise rest d (some k) ks2 hi vs2 hwf2.2 hsl2 hb2
                  (by simpa using hlen)).1
              by_cases hkq : k < q
              · have hka2 : keyAt ks2 q = false := by
                  rw [keyAt_cons_lt hkq] at hka
                  exact hka
                have hlb : lowerBound (k :: ks2) q = lowerBound ks2 q + 1 := by
                  rw [lowerBound_cons, if_pos hkq]
                have hget2 : rest.get? (lowerBound ks2 q) = some c := by
                  rw [hlb] at hget
                  exact hget
                have ihv := ih vs2 rest d (some k) hi q c hwf2.2 hsl2 hb2
                  (by simpa using hlen) hka2 hget2
                rw [hseq, specFloor_append,
                  specFloor_cons_le (k, v) (seqList ks2 vs2 rest) q (Nat.le_of_lt hkq),
                  ihv, hlb]
                cases hX : specFloor (toList c) q with
                | some p => rfl
                | none =>
                    by_cases hpos : 0 < lowerBound ks2 q
                    · rw [if_pos hpos, if_pos (by omega)]
                      have h1 : lowerBound ks2 q + 1 - 1 = (lowerBound ks2 q - 1) + 1 := by
                        omega
                      rw [h1, List.getD_cons_succ, List.getD_cons_succ]
                    · rw [if_neg hpos, if_pos (by omega)]
                      have h1 : lowerBound ks2 q + 1 - 1 = 0 := by omega
                      rw [h1]
                      rfl
              · have hlb := lowerBound_zero_of_not_lt hs hkq
                have hqk : q < k := by
                  rcases Nat.lt_or_ge q k with h1 | h2
                  · exact h1
                  · exfalso
                    have hkq2 : k = q := by omega
                    subst hkq2
                    unfold keyAt at hka
                    rw [hlb] at hka
                    simp at hka
                have hc : c0 = c := by
                  rw [hlb] at hget
                  simpa [Forest.get?] using hget
                subst hc
                have hSnone : specFloor (seqList ks2 vs2 rest) q = none := by
                  apply specFloor_none_of_all_gt
                  intro p hp
                  have := hSbnd p hp
                  rw [inBounds_iff] at this
                  have := this.1 k rfl
                  omega
                rw [hseq, specFloor_append, specFloor_cons_gt (k, v) _ q hqk, hSnone, hlb]
                cases hX : specFloor (toList c0) q <;> simp

theorem seq_floor_found {V : Type} [Inhabited V] :
    ∀ (ks : List Nat) (vs : List V) (cs : Forest V) (d : Nat) (lo hi : Option Nat)
      (q : Nat),
      wfChildren d lo ks hi cs = true →
      sortedLt ks = true →
      ks.all (fun k => inBounds lo hi k) = true →
      vs.length = ks.length →
      keyAt ks q = true →
      specFloor (seqList ks vs cs) q = some (q, vs.getD (lowerBound ks q) default) := by
  intro ks
  induction ks with
  | nil => intro vs cs d lo hi q _ _ _ _ hka; simp [keyAt, lowerBound] at hka
  | cons k ks2 ih =>
      intro vs cs d lo hi q hwf hs hb hlen hka
      obtain ⟨hsl2, hklt⟩ := sortedLt_cons ks2 k hs
      cases cs with
      | nil => simp [wfChildren] at hwf
      | cons c0 rest =>
          have hwf2 : wfNode d lo (some k) false c0 = true ∧
              wfChildren d (some k) ks2 hi rest = true := by
            simpa [wfChildren, Bool.and_eq_true] using hwf
          cases vs with
          | nil => simp at hlen
          | cons v vs2 =>
              have hb2 : ks2.all (fun x => inBounds (some k) hi x) = true := by
                rw [List.all_eq_true]
                intro x hx
                have hx2 := (List.all_eq_true.mp hb) x (List.mem_cons_of_mem k hx)
                rw [inBounds_iff] at hx2 ⊢
                exact ⟨fun l hl => by cases hl; exact hklt x hx, hx2.2⟩
              have hseq : seqList (k :: ks2) (v :: vs2) (Forest.cons c0 rest) =
                  toList c0 ++ (k, v) :: seqList ks2 vs2 rest := rfl
              by_cases hkq : k < q
              · have hka2 : keyAt ks2 q = true := by
                  rw [keyAt_cons_lt hkq] at hka
                  exact hka
                have ihv := ih vs2 rest d (some k) hi q hwf2.2 hsl2 hb2
                  (by simpa using hlen) hka2
                rw [hseq, specFloor_append,
                  specFloor_cons_le (k, v) (seqList ks2 vs2 rest) q (Nat.le_of_lt hkq),
                  ihv, lowerBound_cons, if_pos hkq, List.getD_cons_succ]
              · have hlb := lowerBound_zero_of_not_lt hs hkq
                have hkq2 : k = q := by
                  unfold keyAt at hka
                  rw [hlb] at hka
                  simpa using hka
                subst hkq2
                have hSnone : specFloor (seqList ks2 vs2 rest) k = none := by
                  apply specFloor_none_of_all_gt
                  intro p hp
                  have := (seqList_bounds_pairwise rest d (some k) ks2 hi vs2 hwf2.2 hsl2 hb2
                    (by simpa using hlen)).1 p hp
                  rw [inBounds_iff] at this
                  have := this.1 k rfl
                  omega
                rw [hseq, specFloor_append,
                  specFloor_cons_le (k, v) (seqList ks2 vs2 rest) k (by omega), hSnone, hlb]
                rfl


theorem seqList_mem_pair {V : Type} [Inhabited V] :
    ∀ (ks : List Nat) (vs : List V) (cs : Forest V) (j : Nat),
      vs.length = ks.length → j < ks.length →
      (ks.getD j 0, vs.getD j default) ∈ seqList ks vs cs := by
  intro ks
  induction ks with
  | nil => intro vs cs j _ hj; simp at hj
  | cons k ks2 ih =>
      intro vs cs j hlen hj
      cases vs with
      | nil => simp at hlen
      | cons v vs2 =>
          cases cs with
          | nil =>
              rw [show seqList (k :: ks2) (v :: vs2) Forest.nil = (k :: ks2).zip (v :: vs2)
                from rfl]
              exact mem_zip_getD (k :: ks2) (v :: vs2) j hlen hj
          | cons c rest =>
              rw [show seqList (k :: ks2) (v :: vs2) (Forest.cons c rest) =
                toList c ++ (k, v) :: seqList ks2 vs2 rest from rfl]
              apply List.mem_append_right
              cases j with
              | zero => simp
              | succ j2 =>
                  simp only [List.getD_cons_succ]
                  exact List.mem_cons_of_mem _
                    (ih vs2 rest j2 (by simpa using hlen) (by simpa using hj))

theorem gnfRec_mk_eq {V : Type} [Inhabited V] (q : Nat) (best : Option (Nat × V))
    (ks : List Nat) (vs : List V) (cs : Forest V) :
    gnfRec q best (.mk ks vs cs) =
      (if keyAt ks q then some (q, vs.getD (lowerBound ks q) default)
       else
         gnfChild q
           (if 0 < lowerBound ks q then
             bestCand best (ks.getD (lowerBound ks q - 1) 0)
               (vs.getD (lowerBound ks q - 1) default)
           else best)
           (lowerBound ks q) cs) := rfl

theorem gnfChild_nil {V : Type} [Inhabited V] (q : Nat) (best : Option (Nat × V))
    (i : Nat) : gnfChild q best i (Forest.nil) = best := by
  cases i <;> rfl

theorem bestCand_eq_some {V : Type} (best : Option (Nat × V)) (ck : Nat) (cv : V)
    (h : ∀ bk bv, best = some (bk, bv) → bk < ck) :
    bestCand best ck cv = some (ck, cv) := by
  cases best with
  | none => rfl
  | some p =>
      obtain ⟨bk, bv⟩ := p
      exact if_pos (h bk bv rfl)

/-- Correctness of the floor search relative to the in-order listing, with
the accumulated `best` tracked through the descent. -/
theorem gnf_correct {V : Type} [Inhabited V] :
    ∀ (d : Nat) (n : Node V) (lo hi : Option Nat) (r : Bool) (q : Nat)
      (best : Option (Nat × V)),
      wfNode d lo hi r n = true →
      (∀ bk bv, best = some (bk, bv) → bk ≤ q ∧ ∀ p ∈ toList n, bk < p.1) →
      gnfRec q best n =
        (match specFloor (toList n) q with
         | some p => some p
         | none => best) := by
  intro d
  induction d with
  | zero =>
      intro n lo hi r q best hwf hbest
      obtain ⟨ks, vs, cs⟩ := n
      rw [wfNode_mk_eq] at hwf
      simp only [Bool.and_eq_true, decide_eq_true_eq] at hwf
      obtain ⟨⟨⟨⟨⟨hs, hb⟩, hlen⟩, hord⟩, hmin⟩, hmatch⟩ := hwf
      cases cs with
      | cons c rest => simp at hmatch
      | nil =>
          have htl : toList (Node.mk ks vs (Forest.nil (V := V))) = ks.zip vs := rfl
          rw [gnfRec_mk_eq, htl]
          by_cases hka : keyAt ks q
          · rw [if_pos hka, zip_floor_found ks vs q hs hlen hka]
          · rw [if_neg hka, zip_floor_not_found ks vs q hs hlen (by simpa using hka),
              gnfChild_nil]
            by_cases hpos : 0 < lowerBound ks q
            · have hmem : (ks.getD (lowerBound ks q - 1) 0,
                  vs.getD (lowerBound ks q - 1) default) ∈ ks.zip vs := by
                apply mem_zip_getD ks vs _ hlen
                have := lowerBound_le_length ks q
                omega
              have harg : ∀ bk bv, best = some (bk, bv) →
                  bk < ks.getD (lowerBound ks q - 1) 0 := fun bk bv h2 =>
                (hbest bk bv h2).2
                  (ks.getD (lowerBound ks q - 1) 0,
                    vs.getD (lowerBound ks q - 1) default) (htl ▸ hmem)
              rw [if_pos hpos, if_pos hpos, bestCand_eq_some best _ _ harg]
            · rw [if_neg hpos, if_neg hpos]
  | succ d ih =>
      intro n lo hi r q best hwf hbest
      obtain ⟨ks, vs, cs⟩ := n
      rw [wfNode_mk_eq] at hwf
      simp only [Bool.and_eq_true, decide_eq_true_eq] at hwf
      obtain ⟨⟨⟨⟨⟨hs, hb⟩, hlen⟩, hord⟩, hmin⟩, hmatch⟩ := hwf
      cases cs with
      | nil => simp at hmatch
      | cons c0 rest =>
          have hwfc : wfChildren d lo ks hi (.cons c0 rest) = true := hmatch
          have htl : toList (Node.mk ks vs (Forest.cons c0 rest)) =
              seqList ks vs (.cons c0 rest) := rfl
          have hilen : lowerBound ks q < (Forest.cons c0 rest).length := by
            rw [wfChildren_length ks _ d lo hi hwfc]
            have := lowerBound_le_length ks q
            omega
          obtain ⟨c, hget⟩ := Forest.get?_some_of_lt (lowerBound ks q) _ hilen
          have hwfchild := wfChildren_get ks _ d lo hi (lowerBound ks q) c hwfc hget
          have hcbnd := (toList_bounds_pairwise c d (childLo ks lo (lowerBound ks q))
            (childHi ks hi (lowerBound ks q)) false hwfchild).1
          rw [gnfRec_mk_eq, htl]
          by_cases hka : keyAt ks q
          · rw [if_pos hka, seq_floor_found ks vs _ d lo hi q hwfc hs hb hlen hka]
          · rw [if_neg hka,
              seq_floor_not_found ks vs _ d lo hi q c hwfc hs hb hlen
                (by simpa using hka) hget,
              gnfChild_found q _ (lowerBound ks q) (Forest.cons c0 rest) c hget]
            by_cases hpos : 0 < lowerBound ks q
            · have hckq : ks.getD (lowerBound ks q - 1) 0 < q :=
                lowerBound_prefix_lt ks q (lowerBound ks q - 1) hs (by omega)
              have hmem : (ks.getD (lowerBound ks q - 1) 0,
                  vs.getD (lowerBound ks q - 1) default) ∈
                    seqList ks vs (.cons c0 rest) := by
                apply seqList_mem_pair ks vs _ _ hlen
                have := lowerBound_le_length ks q
                omega
              have harg : ∀ bk bv, best = some (bk, bv) →
                  bk < ks.getD (lowerBound ks q - 1) 0 := fun bk bv h2 =>
                (hbest bk bv h2).2
                  (ks.getD (lowerBound ks q - 1) 0,
                    vs.getD (lowerBound ks q - 1) default) (htl ▸ hmem)
              have hclo : childLo ks lo (lowerBound ks q) =
                  some (ks.getD (lowerBound ks q - 1) 0) := by
                unfold childLo
                rw [if_neg (by omega)]
              have hcompat : ∀ bk bv,
                  (some (ks.getD (lowerBound ks q - 1) 0,
                    vs.getD (lowerBound ks q - 1) default) : Option (Nat × V)) =
                      some (bk, bv) →
                  bk ≤ q ∧ ∀ p ∈ toList c, bk < p.1 := by
                intro bk bv hEq
                injection hEq with hEq2
                have h1 : bk = ks.getD (lowerBound ks q - 1) 0 :=
                  (congrArg Prod.fst hEq2).symm
                subst h1
                refine ⟨Nat.le_of_lt hckq, fun p hp => ?_⟩
                have hib := hcbnd p hp
                rw [hclo, inBounds_iff] at hib
                exact hib.1 _ rfl
              rw [if_pos hpos, if_pos hpos, bestCand_eq_some best _ _ harg,
                ih c _ _ false q _ hwfchild hcompat]
              cases hX : specFloor (toList c) q <;> rfl
            · have hzero : lowerBound ks q = 0 := by omega
              have hc0 : c = c0 := by
                rw [hzero] at hget
                have h2 : some c0 = some c := by simpa [Forest.get?] using hget
                injection h2 with h3
                exact h3.symm
              have hcompat : ∀ bk bv, best = some (bk, bv) →
                  bk ≤ q ∧ ∀ p ∈ toList c, bk < p.1 := by
                intro bk bv hEq
                refine ⟨(hbest bk bv hEq).1, fun p hp => ?_⟩
                apply (hbest bk bv hEq).2
                rw [htl]
                exact List.mem_append_left _ (hc0 ▸ hp)
              rw [if_neg hpos, if_neg hpos, ih c _ _ false q _ hwfchild hcompat]
              cases hX : specFloor (toList c) q <;> rfl

/-- The example map `{10 => "a", 20 => "b", 40 => "c"}` as a single leaf. -/
def exMap : Node String := .mk [10, 20, 40] ["a", "b", "c"] .nil

/-- **C8**: on every well-formed map, `get_nearest_floor` returns the
key/value pair with the largest key at most the query, or `none` when the map
holds no such key — stated both as refinement to the floor of the in-order
listing and as the membership/maximality characterization — and on the map
`{10 => "a", 20 => "b", 40 => "c"}` the queries 25, 10, 5 and 100 yield
`(20, "b")`, `(10, "a")`, `none` and `(40, "c")` respectively. -/
theorem get_nearest_floor_finds_floor {V : Type} [Inhabited V]
    (t : Node V) (q : Nat) (hwf : WF t) :
    (getNearestFloor t q = specFloor (toList t) q ∧
      (∀ k v, getNearestFloor t q = some (k, v) →
        (k, v) ∈ toList t ∧ k ≤ q ∧ ∀ p ∈ toList t, p.1 ≤ q → p.1 ≤ k) ∧
      (getNearestFloor t q = none → ∀ p ∈ toList t, q < p.1)) ∧
    (getNearestFloor exMap 25 = some (20, "b") ∧
      getNearestFloor exMap 10 = some (10, "a") ∧
      getNearestFloor exMap 5 = none ∧
      getNearestFloor exMap 100 = some (40, "c")) := by
  have hfl : getNearestFloor t q = specFloor (toList t) q := by
    have h := gnf_correct (nodeDepth t) t none none true q none hwf
      (fun bk bv h2 => Option.noConfusion h2)
    unfold getNearestFloor
    rw [h]
    cases hX : specFloor (toList t) q <;> rfl
  have hpw := (toList_bounds_pairwise t (nodeDepth t) none none true hwf).2
  have hch := specFloor_char (toList t) q hpw
  refine ⟨⟨hfl, ?_, ?_⟩, rfl, rfl, rfl, rfl⟩
  · intro k v hkv
    exact hch.1 (k, v) (hfl.symm.trans hkv)
  · intro hnone
    exact hch.2 (hfl.symm.trans hnone)

theorem get_nearest_floor_finds_floor_witness :
    getNearestFloor exMap 25 = specFloor (toList exMap) 25 :=
  (get_nearest_floor_finds_floor exMap 25 (by unfold WF; decide)).1.1

/-! ### Insert on an existing key (`insert.rs`) -/

mutual
/-- The shape of a node: its keys, its value-slot count and its child
structure, with the stored values erased. -/
def nodeShape {V : Type} : Node V → Node Unit
  | .mk ks vs cs => .mk ks (vs.map fun _ => ()) (forestShape cs)
def forestShape {V : Type} : Forest V → Forest Unit
  | .nil => .nil
  | .cons c rest => .cons (nodeShape c) (forestShape rest)
end

theorem unit_set_id : ∀ (l : List Unit) (i : Nat) (u : Unit), l.set i u = l := by
  intro l
  induction l with
  | nil => intro i u; rfl
  | cons a l2 ih =>
      intro i u
      cases i with
      | zero => rfl
      | succ j =>
          show a :: l2.set j u = a :: l2
          rw [ih j u]

theorem list_map_set {α β : Type} (f : α → β) :
    ∀ (l : List α) (i : Nat) (a : α), (l.set i a).map f = (l.map f).set i (f a) := by
  intro l
  induction l with
  | nil => intro i a; rfl
  | cons x l2 ih =>
      intro i a
      cases i with
      | zero => rfl
      | succ j =>
          show f x :: (l2.set j a).map f = f x :: (l2.map f).set j (f a)
          rw [ih j a]

theorem list_get?_set_self {α : Type} :
    ∀ (l : List α) (i : Nat) (a : α), i < l.length → (l.set i a).get? i = some a := by
  intro l
  induction l with
  | nil => intro i a h; simp at h
  | cons x l2 ih =>
      intro i a h
      cases i with
      | zero => rfl
      | succ j => exact ih j a (by simpa using h)

theorem list_get?_set_ne {α : Type} :
    ∀ (l : List α) (i j : Nat) (a : α), j ≠ i → (l.set i a).get? j = l.get? j := by
  intro l
  induction l with
  | nil => intro i j a _; rfl
  | cons x l2 ih =>
      intro i j a h
      cases i with
      | zero =>
          cases j with
          | zero => exact absurd rfl h
          | succ j2 => rfl
      | succ i2 =>
          cases j with
          | zero => rfl
          | succ j2 => exact ih i2 j2 a (fun he => h (by rw [he]))

theorem list_get?_lt {α : Type} :
    ∀ (l : List α) (i : Nat) (a : α), l.get? i = some a → i < l.length := by
  intro l
  induction l with
  | nil => intro i a h; exact Option.noConfusion h
  | cons x l2 ih =>
      intro i a h
      cases i with
      | zero => simp
      | succ j => exact Nat.succ_lt_succ (ih j a h)

theorem Forest.get_set_self {V : Type} :
    ∀ (i : Nat) (cs : Forest V) (c : Node V), i < cs.length →
      (cs.set i c).get? i = some c := by
  intro i
  induction i with
  | zero =>
      intro cs c h
      cases cs with
      | nil => simp [Forest.length] at h
      | cons c0 rest => rfl
  | succ j ih =>
      intro cs c h
      cases cs with
      | nil => simp [Forest.length] at h
      | cons c0 rest =>
          exact ih rest c (by simpa [Forest.length] using h)

theorem Forest.get_set_ne {V : Type} :
    ∀ (j i : Nat) (cs : Forest V) (c : Node V), j ≠ i →
      (cs.set i c).get? j = cs.get? j := by
  intro j
  induction j with
  | zero =>
      intro i cs c h
      cases cs with
      | nil => rfl
      | cons c0 rest =>
          cases i with
          | zero => exact absurd rfl h
          | succ i2 => rfl
  | succ j2 ih =>
      intro i cs c h
      cases cs with
      | nil => rfl
      | cons c0 rest =>
          cases i with
          | zero => rfl
          | succ i2 => exact ih i2 rest c (fun he => h (by rw [he]))

theorem forestShape_set {V : Type} :
    ∀ (i : Nat) (cs : Forest V) (c c2 : Node V), cs.get? i = some c →
      nodeShape c2 = nodeShape c → forestShape (cs.set i c2) = forestShape cs := by
  intro i
  induction i with
  | zero =>
      intro cs c c2 hget hsh
      cases cs with
      | nil => exact Option.noConfusion hget
      | cons c0 rest =>
          have h0 : c0 = c := by
            injection hget
          subst h0
          show Forest.cons (nodeShape c2) (forestShape rest) =
            Forest.cons (nodeShape c0) (forestShape rest)
          rw [hsh]
  | succ j ih =>
      intro cs c c2 hget hsh
      cases cs with
      | nil => exact Option.noConfusion hget
      | cons c0 rest =>
          show Forest.cons (nodeShape c0) (forestShape (rest.set j c2)) =
            Forest.cons (nodeShape c0) (forestShape rest)
          rw [ih rest c c2 hget hsh]

theorem getChild_eq {V : Type} (k : Nat) :
    ∀ (i : Nat) (cs : Forest V),
      getChild k i cs =
        match cs.get? i with
        | some c => getRec k c
        | none => none := by
  intro i
  induction i with
  | zero => intro cs; cases cs <;> rfl
  | succ j ih =>
      intro cs
      cases cs with
      | nil => rfl
      | cons c rest => exact ih rest

theorem getChild_found {V : Type} (k : Nat) (i : Nat) (cs : Forest V) (c : Node V)
    (h : cs.get? i = some c) : getChild k i cs = getRec k c := by
  rw [getChild_eq k i cs, h]

theorem getChild_ext {V : Type} (k : Nat) (i : Nat) (cs cs2 : Forest V)
    (h : cs.get? i = cs2.get? i) : getChild k i cs = getChild k i cs2 := by
  rw [getChild_eq k i cs, getChild_eq k i cs2, h]

theorem getChild_nil {V : Type} (k : Nat) (i : Nat) :
    getChild k i (Forest.nil (V := V)) = none := by
  cases i <;> rfl

theorem getRec_mk_eq {V : Type} (k : Nat) (ks : List Nat) (vs : List V)
    (cs : Forest V) :
    getRec k (.mk ks vs cs) =
      (if keyAt ks k then vs.get? (lowerBound ks k)
       else getChild k (lowerBound ks k) cs) := rfl

theorem keyAt_true_get {ks : List Nat} {k : Nat} (h : keyAt ks k = true) :
    ks.get? (lowerBound ks k) = some k := of_decide_eq_true h

theorem insertChild_found {V : Type} [Inhabited V] (k : Nat) (v : V) :
    ∀ (i : Nat) (cs : Forest V) (c : Node V), cs.get? i = some c →
      insertChild k v i cs = (cs.set i (insertRec k v c).1, (insertRec k v c).2) := by
  intro i
  induction i with
  | zero =>
      intro cs c h
      cases cs with
      | nil => exact Option.noConfusion h
      | cons c0 rest =>
          have h0 : c0 = c := by
            injection h
          subst h0
          rfl
  | succ j ih =>
      intro cs c h
      cases cs with
      | nil => exact Option.noConfusion h
      | cons c0 rest =>
          show (Forest.cons c0 (insertChild k v j rest).1,
              (insertChild k v j rest).2) = _
          rw [ih rest c h]
          rfl

theorem insertRec_hit {V : Type} [Inhabited V] (k : Nat) (v : V) (ks : List Nat)
    (vs : List V) (cs : Forest V) (hka : keyAt ks k = true) :
    insertRec k v (.mk ks vs cs) =
      (Node.mk ks (vs.set (lowerBound ks k) v) cs, none) := by
  unfold insertRec
  simp only [hka, if_true]

theorem insertRec_descend {V : Type} [Inhabited V] (k : Nat) (v : V)
    (ks : List Nat) (vs : List V) (cs : Forest V) (c : Node V)
    (hka : keyAt ks k = false)
    (hget : cs.get? (lowerBound ks k) = some c)
    (hnone : (insertRec k v c).2 = none) :
    insertRec k v (.mk ks vs cs) =
      (Node.mk ks vs (cs.set (lowerBound ks k) (insertRec k v c).1), none) := by
  cases cs with
  | nil => exact Option.noConfusion hget
  | cons c0 rest =>
      conv_lhs => unfold insertRec
      simp only [hka, Bool.false_eq_true, if_false,
        insertChild_found k v (lowerBound ks k) (.cons c0 rest) c hget, hnone]

/-- The hit case shared by every level: when binary search finds the key at
this node, the insert rewrites the value slot in place and reports no
split. -/
theorem insertRec_existing_hit {V : Type} [Inhabited V] (k : Nat) (v : V)
    (ks : List Nat) (vs : List V) (cs : Forest V)
    (hlen : vs.length = ks.length) (hka : keyAt ks k = true) :
    (insertRec k v (.mk ks vs cs)).2 = none ∧
    nodeShape (insertRec k v (.mk ks vs cs)).1 = nodeShape (.mk ks vs cs) ∧
    getRec k (insertRec k v (.mk ks vs cs)).1 = some v ∧
    (∀ k2, k2 ≠ k →
      getRec k2 (insertRec k v (.mk ks vs cs)).1 = getRec k2 (.mk ks vs cs)) := by
  have hi : lowerBound ks k < ks.length := list_get?_lt ks _ k (keyAt_true_get hka)
  rw [insertRec_hit k v ks vs cs hka]
  refine ⟨rfl, ?_, ?_, ?_⟩
  · show Node.mk ks ((vs.set (lowerBound ks k) v).map fun _ => ()) (forestShape cs) =
      Node.mk ks (vs.map fun _ => ()) (forestShape cs)
    rw [list_map_set, unit_set_id]
  · rw [getRec_mk_eq, if_pos hka]
    exact list_get?_set_self vs _ v (by omega)
  · intro k2 hk2
    rw [getRec_mk_eq, getRec_mk_eq]
    by_cases hka2 : keyAt ks k2 = true
    · rw [if_pos hka2, if_pos hka2]
      have hne : lowerBound ks k2 ≠ lowerBound ks k := by
        intro he
        have h1 := keyAt_true_get hka2
        have h2 := keyAt_true_get hka
        rw [he, h2] at h1
        injection h1 with h3
        exact hk2 h3.symm
      exact list_get?_set_ne vs _ _ v hne
    · rw [if_neg hka2, if_neg hka2]

/-- Descending the tree: inserting a key the subtree already holds rewrites
exactly one value slot in place, splits nothing and preserves every shape
and every other binding. -/
theorem insertRec_existing {V : Type} [Inhabited V] (k : Nat) (v : V) :
    ∀ (d : Nat) (n : Node V) (lo hi : Option Nat) (r : Bool) (w : V),
      wfNode d lo hi r n = true → getRec k n = some w →
      (insertRec k v n).2 = none ∧
      nodeShape (insertRec k v n).1 = nodeShape n ∧
      getRec k (insertRec k v n).1 = some v ∧
      (∀ k2, k2 ≠ k → getRec k2 (insertRec k v n).1 = getRec k2 n) := by
  intro d
  induction d with
  | zero =>
      intro n lo hi r w hwf hget
      obtain ⟨ks, vs, cs⟩ := n
      rw [wfNode_mk_eq] at hwf
      simp only [Bool.and_eq_true, decide_eq_true_eq] at hwf
      obtain ⟨⟨⟨⟨⟨hs, hb⟩, hlen⟩, hord⟩, hmin⟩, hmatch⟩ := hwf
      cases cs with
      | cons c rest => simp at hmatch
      | nil =>
          by_cases hka : keyAt ks k = true
          · exact insertRec_existing_hit k v ks vs _ hlen hka
          · rw [getRec_mk_eq, if_neg hka, getChild_nil] at hget
            exact Option.noConfusion hget
  | succ d ih =>
      intro n lo hi r w hwf hget
      obtain ⟨ks, vs, cs⟩ := n
      rw [wfNode_mk_eq] at hwf
      simp only [Bool.and_eq_true, decide_eq_true_eq] at hwf
      obtain ⟨⟨⟨⟨⟨hs, hb⟩, hlen⟩, hord⟩, hmin⟩, hmatch⟩ := hwf
      cases cs with
      | nil => simp at hmatch
      | cons c0 rest =>
          have hwfc : wfChildren d lo ks hi (.cons c0 rest) = true := hmatch
          by_cases hka : keyAt ks k = true
          · exact insertRec_existing_hit k v ks vs _ hlen hka
          · have hilen : lowerBound ks k < (Forest.cons c0 rest).length := by
              rw [wfChildren_length ks _ d lo hi hwfc]
              have := lowerBound_le_length ks k
              omega
            obtain ⟨c, hgetc⟩ := Forest.get?_some_of_lt (lowerBound ks k) _ hilen
            have hchild : getRec k c = some w := by
              rw [getRec_mk_eq, if_neg hka,
                getChild_found k (lowerBound ks k) _ c hgetc] at hget
              exact hget
            have hwfchild := wfChildren_get ks _ d lo hi (lowerBound ks k) c hwfc hgetc
            obtain ⟨hn, hsh, hv, ho⟩ := ih c _ _ false w hwfchild hchild
            rw [insertRec_descend k v ks vs _ c (by simpa using hka) hgetc hn]
            refine ⟨rfl, ?_, ?_, ?_⟩
            · show Node.mk ks (vs.map fun _ => ())
                  (forestShape ((Forest.cons c0 rest).set (lowerBound ks k)
                    (insertRec k v c).1)) =
                Node.mk ks (vs.map fun _ => ()) (forestShape (Forest.cons c0 rest))
              rw [forestShape_set (lowerBound ks k) _ c (insertRec k v c).1 hgetc hsh]
            · rw [getRec_mk_eq, if_neg hka,
                getChild_found k (lowerBound ks k) _ (insertRec k v c).1
                  (Forest.get_set_self (lowerBound ks k) _ (insertRec k v c).1 hilen)]
              exact hv
            · intro k2 hk2
              rw [getRec_mk_eq, getRec_mk_eq]
              by_cases hka2 : keyAt ks k2 = true
              · rw [if_pos hka2, if_pos hka2]
              · rw [if_neg hka2, if_neg hka2]
                by_cases hii : lowerBound ks k2 = lowerBound ks k
                · rw [hii,
                    getChild_found k2 (lowerBound ks k) _ (insertRec k v c).1
                      (Forest.get_set_self (lowerBound ks k) _ (insertRec k v c).1 hilen),
                    getChild_found k2 (lowerBound ks k) _ c hgetc]
                  exact ho k2 hk2
                · exact getChild_ext k2 (lowerBound ks k2) _ _
                    (Forest.get_set_ne (lowerBound ks k2) (lowerBound ks k) _
                      (insertRec k v c).1 hii)

theorem insert_of_no_split {V : Type} [Inhabited V] (t : Node V) (k : Nat) (v : V)
    (h : (insertRec k v t).2 = none) : insert t k v = (insertRec k v t).1 := by
  unfold insert
  simp only [h]

/-- **C9**: inserting a key the well-formed map already contains replaces
only that key's value: the recursive insert reports no split, the rebuilt
root is the recursion's result (so no new root is allocated), the shape —
keys, value-slot counts and child structure of every node — is unchanged,
the key now maps to the new value, and every other key's lookup is
untouched. -/
theorem insert_existing_key_replaces_value_only {V : Type} [Inhabited V]
    (t : Node V) (k : Nat) (v w : V) (hwf : WF t) (hmem : getRec k t = some w) :
    (insertRec k v t).2 = none ∧
    insert t k v = (insertRec k v t).1 ∧
    nodeShape (insert t k v) = nodeShape t ∧
    getRec k (insert t k v) = some v ∧
    (∀ k2, k2 ≠ k → getRec k2 (insert t k v) = getRec k2 t) := by
  obtain ⟨h1, h2, h3, h4⟩ :=
    insertRec_existing k v (nodeDepth t) t none none true w hwf hmem
  have hins : insert t k v = (insertRec k v t).1 := insert_of_no_split t k v h1
  exact ⟨h1, hins, hins ▸ h2, hins ▸ h3, fun k2 hk2 => hins ▸ h4 k2 hk2⟩

theorem insert_existing_key_replaces_value_only_witness :
    getRec 20 exMap = some "b" ∧
      getRec 20 (insert exMap 20 "z") = some "z" ∧
      nodeShape (insert exMap 20 "z") = nodeShape exMap :=
  ⟨rfl,
    (insert_existing_key_replaces_value_only exMap 20 "z" "b"
      (by unfold WF; decide) rfl).2.2.2.1,
    (insert_existing_key_replaces_value_only exMap 20 "z" "b"
      (by unfold WF; decide) rfl).2.2.1⟩

end OMap
